import Mathlib

/-!
Verification of the local correlation and caching engine of the wqb-mcp
repository (shallow embedding).

The Python sources embedded here:
  * `src/wqb_mcp/client/static_cache.py`  (`StaticCache`)
  * `src/wqb_mcp/client/local_correlation.py`
      (`AlphaCache`, `_trim_returns`, `LocalCorrelationMixin`)
  * `src/wqb_mcp/tools/correlation_tools.py` (`_cluster_alphas`)

Modelling conventions:
  * Python dicts are association lists `List (String × α)` with first-match
    lookup; insertion updates in place or appends (Python dict semantics).
  * Calendar dates are encoded as integer numerals `y*10000 + m*100 + d`
    (the ordering of encodings agrees with date order for month/day < 100).
  * Timestamps are integer seconds; a day is 86400 seconds
    (`timedelta(days=ttl_days)`).
  * numpy/pandas floats are modelled as exact rationals `ℚ`; the Pearson
    kernel (`DataFrame.corrwith`, an external library computation whose
    result is an irrational real in general) is an explicit parameter
    `kernel`, returning `none` where pandas would produce `NaN`/`inf`
    (zero-variance columns); the engine drops those, as the source does.
  * Python `round(x, n)` is modelled as round-half-to-even on rationals.
-/

namespace WqbMcp

/-- First-match association-list lookup: Python `dict.get(k)`. -/
def aget {κ α : Type} [DecidableEq κ] (k : κ) : List (κ × α) → Option α
  | [] => none
  | (k1, v) :: rest => if k1 = k then some v else aget k rest

/-- Python `dict[k] = v`: replace the first occurrence in place, else append. -/
def aput {κ α : Type} [DecidableEq κ] (k : κ) (v : α) : List (κ × α) → List (κ × α)
  | [] => [(k, v)]
  | (k1, w) :: rest => if k1 = k then (k, v) :: rest else (k1, w) :: aput k v rest

/-- Python `dict.pop(k, None)` / deleting a directory keyed by `k`. -/
def adel {κ α : Type} [DecidableEq κ] (k : κ) : List (κ × α) → List (κ × α)
  | [] => []
  | (k1, w) :: rest => if k1 = k then adel k rest else (k1, w) :: adel k rest

/-- Dates encoded as `y*10000 + m*100 + d`. -/
def mkDate (y m d : Int) : Int := y * 10000 + m * 100 + d

/-- The year of an encoded date (`pd.Timestamp.year`). -/
def dyear (e : Int) : Int := e / 10000

/-- The month of an encoded date (`pd.Timestamp.month`). -/
def dmonth (e : Int) : Int := e % 10000 / 100

/-- Maximum of a list of integers (`Index.max()`); `none` on the empty list. -/
def listMax : List Int → Option Int
  | [] => none
  | x :: rest =>
    match listMax rest with
    | none => some x
    | some m => some (max x m)

/-- Round half to even (Python `round` on a tie-free scale). -/
def roundHalfEven (x : ℚ) : Int :=
  let f : Int := ⌊x⌋
  let r : ℚ := x - f
  if r < 1/2 then f
  else if 1/2 < r then f + 1
  else if f % 2 = 0 then f else f + 1

/-- Python `round(x, 4)`. -/
def round4 (x : ℚ) : ℚ := (roundHalfEven (x * 10000) : ℚ) / 10000

/-- Python `round(x, 2)`. -/
def round2 (x : ℚ) : ℚ := (roundHalfEven (x * 100) : ℚ) / 100

/-!
## Data model of `local_correlation.py`

`CorrelationType`, `CorrelationData`, `CorrelationSchemaName`,
`SelfCorrelationRecord`, `CorrelationCheckResult` and
`CorrelationCheckResponse` are imported by `local_correlation.py` from the
sibling `correlation` module, where this snapshot of the repository does not
define them; their shapes below are modelled from the spec (sections 3, 4.5
and 6): a correlation result is `(schema_name ∈ SELF/PROD, max, min,
records[])` with a SELF record `(id, name, instrument_type, region, universe,
correlation, sharpe, returns, turnover, fitness, margin)`, and the check
response is `(entityId, threshold, checkTypes[], checks, allPassed)`.
-/

/-- Modelled from the spec: the correlation check types accepted by the
engine (the tools layer constructs them from the strings
"prod"/"self"/"power-pool"). -/
inductive CorrType where
  | SELF
  | PROD
  | POWER_POOL
deriving DecidableEq, Repr

/-- Modelled from the spec: the two correlation record schemas. -/
inductive SchemaName where
  | SELF
  | PROD
deriving DecidableEq, Repr

/-- `AlphaIndexEntry` (`local_correlation.py`): one alpha entry of the cache
index, with the dataclass defaults. -/
structure AlphaIndexEntry where
  name : Option String := none
  instrument_type : Option String := none
  region : String := ""
  universe2 : Option String := none
  is_power_pool : Bool := false
  sharpe : Option ℚ := none
  returns : Option ℚ := none
  turnover : Option ℚ := none
  fitness : Option ℚ := none
  margin : Option ℚ := none
deriving DecidableEq, Repr

/-- One SELF-schema correlation record, as built in
`AlphaCache.fetch_correlation` (`records.append([...])`). -/
structure SelfCorrRow where
  id : String
  name : Option String
  instrument_type : Option String
  region : Option String
  universe2 : Option String
  correlation : ℚ
  sharpe : Option ℚ
  returns : Option ℚ
  turnover : Option ℚ
  fitness : Option ℚ
  margin : Option ℚ
deriving DecidableEq, Repr

/-- Modelled from the spec: `CorrelationResult` `(schema_name, max, min,
records[])`; the bare constructor `CorrelationData()` is the empty result
`max=min=None, records=[]`. -/
structure CorrelationData where
  schemaName : Option SchemaName := none
  max : Option ℚ := none
  min : Option ℚ := none
  records : List SelfCorrRow := []
deriving DecidableEq, Repr

/-- The empty result returned by the documented pass-through branches. -/
def emptyCorrData : CorrelationData := {}

/-- Modelled from the spec: `CorrelationData.is_self_type`. -/
def CorrelationData.isSelfType (cd : CorrelationData) : Bool :=
  cd.schemaName = some SchemaName.SELF

/-!
## `AlphaCache.fetch_correlation` and `_trim_returns`

A pandas `DataFrame` of daily returns is modelled column-major:
`Frame := List (column name × List (encoded date × value))`, the row index
being the union of the column dates.  Values absent from a column at an
index date are pandas `NaN`; the model reads them as `none`.
-/

abbrev Series := List (Int × ℚ)

abbrev Frame := List (String × Series)

/-- The row index of a frame: union of the column dates (deduplicated). -/
def frameDates (f : Frame) : List Int :=
  ((f.map Prod.snd).foldr (fun s acc => s.map Prod.fst ++ acc) []).dedup

/-- pandas `DataFrame.empty`: an axis has length zero. -/
def frameEmpty (f : Frame) : Bool :=
  f.isEmpty || (frameDates f).isEmpty

/-- Value of a series at a date (`NaN` → `none`). -/
def seriesAt (s : Series) (d : Int) : Option ℚ :=
  match s with
  | [] => none
  | (d1, v) :: rest => if d1 = d then some v else seriesAt rest d

/-- Column lookup, `frame[col]`. -/
def colOf (f : Frame) (c : String) : Option Series := aget c f

/-- Column subset selection `frame[cols]` (all of `cols` present). -/
def selectCols (f : Frame) (cols : List String) : Frame :=
  cols.filterMap (fun c => (colOf f c).map (fun s => (c, s)))

/-- Keep exactly the rows with `date ≥ cutoff` (`returns[index >= cutoff]`). -/
def frameFilterGE (f : Frame) (cutoff : Int) : Frame :=
  f.map (fun p => (p.1, p.2.filter (fun q => decide (cutoff ≤ q.1))))

/-- The year-boundary anchor used by `_trim_returns`: the year after the last
observed date when its month is ≥ 7, else its year. -/
def anchorYearOf (last : Int) : Int :=
  if 7 ≤ dmonth last then dyear last + 1 else dyear last

/-- `_trim_returns(returns, years)` (`local_correlation.py`): keep only the
last `years` of daily returns, with the cutoff snapped to Jan 1; the cutoff
is anchored on the latest date of the frame being trimmed. -/
def trimReturns (f : Frame) (years : Int) : Frame :=
  if frameEmpty f then f
  else
    match listMax (frameDates f) with
    | none => f
    | some last => frameFilterGE f (mkDate (anchorYearOf last - years) 1 1)

/-- `_CORR_TYPE_TO_TAG` (`local_correlation.py`). -/
def corrTag : CorrType → String
  | CorrType.SELF => "SelfCorr"
  | CorrType.POWER_POOL => "PPAC"
  | CorrType.PROD => ""

/-- The ids `_group_alpha_ids_by_region(tag, region)[region]` resolves for a
requested region: entries with a nonempty region equal to the request, with
the power-pool flag matching the tag ("PPAC" selects power-pool alphas,
"SelfCorr" the rest).  (Entries with an empty region are skipped, so an
empty request resolves to no ids.) -/
def groupIdsForRegion (alphas : List (String × AlphaIndexEntry))
    (tag : String) (region : String) : List String :=
  alphas.filterMap (fun p =>
    if p.2.region = "" then none
    else if tag = "PPAC" && !p.2.is_power_pool then none
    else if tag = "SelfCorr" && p.2.is_power_pool then none
    else if p.2.region = region then some p.1 else none)

/-- Step 2 of the engine: the resolved baseline ids, intersected with the
columns actually present in the cached wide frame. -/
def resolvedBaselineIds (alphas : List (String × AlphaIndexEntry))
    (cachedReturns : Frame) (corrType : CorrType) (region : String) : List String :=
  (groupIdsForRegion alphas (corrTag corrType) region).filter
    (fun c => decide (c ∈ cachedReturns.map Prod.fst))

/-- The overlapping dates of the trimmed candidate and trimmed baseline
(`candidate_trimmed.index.intersection(baseline_trimmed.index)`). -/
def commonDatesOf (candTrim baseTrim : Frame) : List Int :=
  (frameDates candTrim).filter (fun d => decide (d ∈ frameDates baseTrim))

/-- A Pearson-correlation kernel: given, for each overlapping date, the pair
(baseline value, candidate value) (`none` = pandas `NaN`), produce the
correlation, or `none` where pandas `corrwith` yields `NaN`/`inf` (e.g.
zero-variance columns).  `DataFrame.corrwith` is an external pandas
computation (its value is an irrational real in general), so the engine is
verified for every kernel. -/
abbrev CorrKernel := List (Option ℚ × Option ℚ) → Option ℚ

/-- The per-column correlations that survive
`replace([inf,-inf], nan).dropna()`, in baseline column order. -/
def survivorsOf (kernel : CorrKernel) (baselineIds : List String)
    (baseTrim : Frame) (candSeries : Series) (common : List Int) :
    List (String × ℚ) :=
  baselineIds.filterMap (fun b =>
    match colOf baseTrim b with
    | none => none
    | some bs =>
      (kernel (common.map (fun d => (seriesAt bs d, seriesAt candSeries d)))).map
        (fun r => (b, r)))

/-- `sort_values(ascending=False)`: sort by correlation, descending. -/
def sortCorrDesc (l : List (String × ℚ)) : List (String × ℚ) :=
  l.insertionSort (fun a b => b.2 ≤ a.2)

/-- Build one SELF-schema record for a sorted entry (`fetch_correlation`,
record construction loop; `raw.get("region") or None` maps the empty string
to `None`). -/
def mkSelfRow (alphas : List (String × AlphaIndexEntry)) (p : String × ℚ) :
    SelfCorrRow :=
  let raw := (aget p.1 alphas).getD {}
  { id := p.1
    name := raw.name
    instrument_type := raw.instrument_type
    region := if raw.region = "" then none else some raw.region
    universe2 := raw.universe2
    correlation := round4 p.2
    sharpe := raw.sharpe
    returns := raw.returns
    turnover := raw.turnover
    fitness := raw.fitness
    margin := raw.margin }

/-- `AlphaCache.fetch_correlation(alpha_id, candidate_returns, region,
corr_type, years)`: local Pearson correlation of a candidate against the
cached baseline set.  `Except.error` models a raised exception (`ValueError`
for PROD; pandas `KeyError` when the candidate frame lacks the alpha
column). -/
def fetchCorrelation (alphas : List (String × AlphaIndexEntry))
    (cachedReturns : Frame) (kernel : CorrKernel) (alphaId : String)
    (candidateReturns : Frame) (region : String) (corrType : CorrType)
    (years : Int) : Except String CorrelationData :=
  if corrType = CorrType.PROD then
    Except.error "PROD correlation is not supported locally."
  else
    if frameEmpty cachedReturns || frameEmpty candidateReturns || region = "" then
      Except.ok emptyCorrData
    else
      let baselineIds := resolvedBaselineIds alphas cachedReturns corrType region
      if baselineIds.isEmpty then Except.ok emptyCorrData
      else
        let candTrim := trimReturns candidateReturns years
        let baseTrim := trimReturns (selectCols cachedReturns baselineIds) years
        let common := commonDatesOf candTrim baseTrim
        if common.length < 30 then Except.ok emptyCorrData
        else
          match colOf candTrim alphaId with
          | none => Except.error "KeyError"
          | some candSeries =>
            let sorted :=
              sortCorrDesc (survivorsOf kernel baselineIds baseTrim candSeries common)
            match sorted with
            | [] => Except.ok emptyCorrData
            | top :: rest =>
              Except.ok
                { schemaName := some SchemaName.SELF
                  max := some (round4 top.2)
                  min := some (round4 ((top :: rest).getLast (by simp)).2)
                  records := (top :: rest).map (mkSelfRow alphas) }

/-!
## The checker façade (`LocalCorrelationMixin`)
-/

/-- Modelled from the spec: result for a single correlation type check
(`maxCorrelation, passesCheck, count?, topCorrelations[]?`), as constructed
by `_to_check_result`. -/
structure CorrelationCheckResult where
  max_correlation : Option ℚ := none
  passes_check : Bool
  count : Option Nat := none
  top_correlations : Option (List SelfCorrRow) := none
deriving DecidableEq, Repr

/-- Modelled from the spec: the full check response
(`entityId, threshold, checkTypes[], checks, allPassed`). -/
structure CorrelationCheckResponse where
  alpha_id : String
  threshold : ℚ
  check_types : List CorrType
  checks : List (CorrType × CorrelationCheckResult)
  all_passed : Bool
deriving DecidableEq, Repr

/-- `LocalCorrelationMixin._to_check_result(corr_data, threshold)`: convert a
`CorrelationData` into a pass/fail check result. -/
def toCheckResult (cd : CorrelationData) (threshold : ℚ) : CorrelationCheckResult :=
  match cd.max with
  | none => { passes_check := true }
  | some m =>
    let selfRecords := cd.isSelfType && !cd.records.isEmpty
    { max_correlation := some m
      passes_check := decide (m < threshold)
      count := if selfRecords then some cd.records.length else none
      top_correlations := if selfRecords then some (cd.records.take 3) else none }

/-- The loop body of `_build_check_response`: accumulate the `checks` dict
and the `all_passed` conjunction across the requested types; an exception
from `fetch_correlation` propagates. -/
def buildChecksLoop (alphas : List (String × AlphaIndexEntry))
    (cachedReturns : Frame) (kernel : CorrKernel) (alphaId : String)
    (candidateReturns : Frame) (region : String) (threshold : ℚ) (years : Int) :
    List CorrType → List (CorrType × CorrelationCheckResult) → Bool →
    Except String (List (CorrType × CorrelationCheckResult) × Bool)
  | [], acc, allPassed => Except.ok (acc, allPassed)
  | t :: rest, acc, allPassed =>
    match fetchCorrelation alphas cachedReturns kernel alphaId candidateReturns
        region t years with
    | Except.error e => Except.error e
    | Except.ok cd =>
      let r := toCheckResult cd threshold
      buildChecksLoop alphas cachedReturns kernel alphaId candidateReturns region
        threshold years rest (aput t r acc) (allPassed && r.passes_check)

/-- `LocalCorrelationMixin._build_check_response`: one check result per
requested type plus the aggregate `all_passed`. -/
def buildCheckResponse (alphas : List (String × AlphaIndexEntry))
    (cachedReturns : Frame) (kernel : CorrKernel) (alphaId : String)
    (candidateReturns : Frame) (region : String) (checkTypes : List CorrType)
    (threshold : ℚ) (years : Int) : Except String CorrelationCheckResponse :=
  match buildChecksLoop alphas cachedReturns kernel alphaId candidateReturns
      region threshold years checkTypes [] true with
  | Except.error e => Except.error e
  | Except.ok (checks, allPassed) =>
    Except.ok
      { alpha_id := alphaId
        threshold := threshold
        check_types := checkTypes
        checks := checks
        all_passed := allPassed }

/-!
## `LocalCorrelationMixin._sync_baseline`

The cache the synchronizer mutates is modelled as the in-memory index plus
the on-disk per-alpha series directories; `indexSaves` counts the
`cache.save_index()` calls.  The remote platform is an environment: the
fetched OS roster (each entry already carrying the metadata
`AlphaIndexEntry` built from its settings and IS stats), and the per-alpha
`daily-pnl` fetch, where `none` models a raised exception (the
`try/except` in the sync loop logs and skips that alpha).
-/

structure CacheState where
  indexAlphas : List (String × AlphaIndexEntry)
  disk : List (String × Series)
deriving DecidableEq, Repr

structure SyncEnv where
  roster : List (String × AlphaIndexEntry)
  fetchSeries : String → Option Series

structure SyncOut where
  st : CacheState
  indexSaves : Nat
deriving Repr

/-- One iteration of the download loop of `_sync_baseline`: fetch the daily
returns, `save_alpha` (disk), `register_alpha` (index); a failure skips the
alpha (`synced` counts successes). -/
def syncStep (env : SyncEnv) (acc : CacheState × Nat) (a : String × AlphaIndexEntry) :
    CacheState × Nat :=
  match env.fetchSeries a.1 with
  | none => acc
  | some s =>
    (⟨aput a.1 a.2 acc.1.indexAlphas, aput a.1 s acc.1.disk⟩, acc.2 + 1)

/-- `LocalCorrelationMixin._sync_baseline(cache)`: reconcile the cached
roster against the remote OS roster.  `loaded` is the result of
`cache.load_index()` (`none` when there is no usable index on disk, in which
case the in-memory index starts empty). -/
def syncBaseline (loaded : Option (List (String × AlphaIndexEntry)))
    (disk0 : List (String × Series)) (env : SyncEnv) : SyncOut :=
  let index0 := loaded.getD []
  let cachedIds := index0.map Prod.fst
  let currentIds := env.roster.map Prod.fst
  let staleIds := cachedIds.filter (fun i => decide (i ∉ currentIds))
  let index1 := staleIds.foldl (fun ix i => adel i ix) index0
  let disk1 := staleIds.foldl (fun dk i => adel i dk) disk0
  let newAlphas := env.roster.filter (fun a => decide (a.1 ∉ cachedIds))
  if newAlphas.isEmpty && staleIds.isEmpty then ⟨⟨index1, disk1⟩, 0⟩
  else
    let out := newAlphas.foldl (syncStep env) (⟨index1, disk1⟩, 0)
    ⟨out.1, if 0 < out.2 || !staleIds.isEmpty then 1 else 0⟩

/-- `AlphaCache.load_daily_returns` over all index ids, i.e. the
`all_returns` wide frame of a cache state (per-alpha single-column parquet
files concatenated; a missing file is skipped). -/
def allReturnsOf (st : CacheState) : Frame :=
  st.indexAlphas.filterMap (fun p => (aget p.1 st.disk).map (fun s => (p.1, s)))

/-!
## `check_local_correlation`

The entry point is modelled together with the trace of remote/cache
operations it performs, so that the PROD rejection can be stated as
happening before any of them.
-/

inductive Effect where
  | syncBaselineRun
  | fetchCandidate (id : String)
  | fetchDetails (id : String)
deriving DecidableEq, Repr

structure CheckEnv where
  loaded : Option (List (String × AlphaIndexEntry))
  disk0 : List (String × Series)
  sync : SyncEnv
  candSeriesOf : String → Series
  regionOf : String → String
  kernel : CorrKernel

/-- `LocalCorrelationMixin.check_local_correlation(alpha_id, check_types,
threshold, years)`: sync the OS baseline, fetch the candidate returns and
details, and build the check response.  The returned trace lists the sync
and fetch operations performed; a PROD request raises before any of them. -/
def checkLocalCorrelation (env : CheckEnv) (alphaId : String)
    (checkTypes0 : Option (List CorrType)) (threshold : ℚ) (years : Int) :
    Except String CorrelationCheckResponse × List Effect :=
  let checkTypes := checkTypes0.getD [CorrType.SELF]
  if CorrType.PROD ∈ checkTypes then
    (Except.error "PROD correlation is not supported locally.", [])
  else
    let out := syncBaseline env.loaded env.disk0 env.sync
    let candidateReturns : Frame := [(alphaId, env.candSeriesOf alphaId)]
    let region := env.regionOf alphaId
    (buildCheckResponse out.st.indexAlphas (allReturnsOf out.st) env.kernel
        alphaId candidateReturns region checkTypes threshold years,
      [Effect.syncBaselineRun, Effect.fetchCandidate alphaId,
        Effect.fetchDetails alphaId])

/-!
## `static_cache.py`: values, JSON-in-cell codec

Cell values (Python objects appearing in cached table rows) are modelled by
`JVal`; strings are `List Char`.  `json.dumps` / `json.loads` (Python
stdlib) are modelled by a concrete codec: separators without spaces, string
escaping restricted to `"` and `\` (Python additionally escapes control and
non-ASCII characters; the claims here do not depend on that), integers in
decimal.  Floats are omitted from the modelled value space.
-/

inductive JVal where
  | jnull
  | jbool (b : Bool)
  | jint (n : Int)
  | jstr (s : List Char)
  | jarr (xs : List JVal)
  | jobj (fs : List (List Char × JVal))

/-- The ten decimal digit characters. -/
def digitChar (n : Nat) : Char :=
  match n with
  | 0 => '0' | 1 => '1' | 2 => '2' | 3 => '3' | 4 => '4'
  | 5 => '5' | 6 => '6' | 7 => '7' | 8 => '8' | _ => '9'

def dval (c : Char) : Nat := c.toNat - 48

def isDig (c : Char) : Bool := 48 ≤ c.toNat && c.toNat ≤ 57

def digitsToNat (ds : List Char) : Nat := ds.foldl (fun a c => 10 * a + dval c) 0

def natDigitsAux : Nat → Nat → List Char
  | 0, _ => []
  | fuel+1, n =>
    if n < 10 then [digitChar n]
    else natDigitsAux fuel (n / 10) ++ [digitChar (n % 10)]

/-- Decimal digits of a natural number (`str(n)`). -/
def natDigits (n : Nat) : List Char := natDigitsAux (n + 1) n

/-- Decimal representation of an integer (`str(n)` / `repr`). -/
def intChars (n : Int) : List Char :=
  if n < 0 then '-' :: natDigits (-n).toNat else natDigits n.toNat

/-- JSON string-body escaping (quotes and backslashes). -/
def escString : List Char → List Char
  | [] => []
  | c :: rest =>
    if c = '"' || c = '\\' then '\\' :: c :: escString rest
    else c :: escString rest

/-- A JSON string literal. -/
def encStr (s : List Char) : List Char := '"' :: (escString s ++ ['"'])

mutual

/-- `json.dumps` on a value. -/
def jenc : JVal → List Char
  | JVal.jnull => ['n', 'u', 'l', 'l']
  | JVal.jbool true => ['t', 'r', 'u', 'e']
  | JVal.jbool false => ['f', 'a', 'l', 's', 'e']
  | JVal.jint n => intChars n
  | JVal.jstr s => encStr s
  | JVal.jarr xs => '[' :: (jencItems xs ++ [']'])
  | JVal.jobj fs => '\x7b' :: (jencFields fs ++ ['\x7d'])

def jencItems : List JVal → List Char
  | [] => []
  | [x] => jenc x
  | x :: y :: rest => jenc x ++ ',' :: jencItems (y :: rest)

def jencFields : List (List Char × JVal) → List Char
  | [] => []
  | [(k, v)] => encStr k ++ ':' :: jenc v
  | (k, v) :: g :: rest => encStr k ++ ':' :: jenc v ++ ',' :: jencFields (g :: rest)
end

/-- Parse a JSON string body up to the closing quote, undoing `escString`. -/
def parseStrBody : List Char → Option (List Char × List Char)
  | [] => none
  | c :: rest =>
    if c = '\\' then
      match rest with
      | [] => none
      | c2 :: rest2 => (parseStrBody rest2).map (fun p => (c2 :: p.1, p.2))
    else if c = '"' then some ([], rest)
    else (parseStrBody rest).map (fun p => (c :: p.1, p.2))

/-- Parse a nonempty run of decimal digits. -/
def parseNatChars (cs : List Char) : Option (Nat × List Char) :=
  let ds := cs.takeWhile isDig
  if ds.isEmpty then none else some (digitsToNat ds, cs.drop ds.length)

/-- Parse a decimal integer with optional leading minus. -/
def parseIntChars : List Char → Option (Int × List Char)
  | [] => none
  | c :: tl =>
    if c = '-' then (parseNatChars tl).map (fun p => (-(p.1 : Int), p.2))
    else (parseNatChars (c :: tl)).map (fun p => ((p.1 : Int), p.2))

/-- One step of the JSON value parser (`json.loads`, success cases), given
the next-level item/field parsers. -/
def jparseVBody
    (pI : List Char → Option (List JVal × List Char))
    (pF : List Char → Option (List (List Char × JVal) × List Char))
    (cs : List Char) : Option (JVal × List Char) :=
  match cs with
  | [] => none
  | c :: rest =>
    if c = 'n' then
      match rest with
      | 'u' :: 'l' :: 'l' :: r => some (JVal.jnull, r)
      | _ => none
    else if c = 't' then
      match rest with
      | 'r' :: 'u' :: 'e' :: r => some (JVal.jbool true, r)
      | _ => none
    else if c = 'f' then
      match rest with
      | 'a' :: 'l' :: 's' :: 'e' :: r => some (JVal.jbool false, r)
      | _ => none
    else if c = '"' then
      (parseStrBody rest).map (fun p => (JVal.jstr p.1, p.2))
    else if c = '[' then
      match rest with
      | [] => none
      | c2 :: rest2 =>
        if c2 = ']' then some (JVal.jarr [], rest2)
        else
          match pI (c2 :: rest2) with
          | none => none
          | some (xs, r) =>
            match r with
            | [] => none
            | c3 :: r3 => if c3 = ']' then some (JVal.jarr xs, r3) else none
    else if c = '\x7b' then
      match rest with
      | [] => none
      | c2 :: rest2 =>
        if c2 = '\x7d' then some (JVal.jobj [], rest2)
        else
          match pF (c2 :: rest2) with
          | none => none
          | some (fs, r) =>
            match r with
            | [] => none
            | c3 :: r3 => if c3 = '\x7d' then some (JVal.jobj fs, r3) else none
    else
      match parseIntChars (c :: rest) with
      | none => none
      | some (n, r) => some (JVal.jint n, r)

/-- One step of the comma-separated-values parser (stops before a
non-comma), given the next-level value/item parsers. -/
def jparseItemsBody
    (pV : List Char → Option (JVal × List Char))
    (pI : List Char → Option (List JVal × List Char))
    (cs : List Char) : Option (List JVal × List Char) :=
  match pV cs with
  | none => none
  | some (v, r) =>
    match r with
    | [] => some ([v], [])
    | c :: r2 =>
      if c = ',' then
        match pI r2 with
        | none => none
        | some (vs, r3) => some (v :: vs, r3)
      else some ([v], c :: r2)

/-- One step of the comma-separated-fields parser (stops before a
non-comma), given the next-level value/field parsers. -/
def jparseFieldsBody
    (pV : List Char → Option (JVal × List Char))
    (pF : List Char → Option (List (List Char × JVal) × List Char))
    (cs : List Char) : Option (List (List Char × JVal) × List Char) :=
  match cs with
  | [] => none
  | c :: cs2 =>
    if c = '"' then
      match parseStrBody cs2 with
      | none => none
      | some (k, r) =>
        match r with
        | [] => none
        | c2 :: r2 =>
          if c2 = ':' then
            match pV r2 with
            | none => none
            | some (v, r3) =>
              match r3 with
              | [] => some ([(k, v)], [])
              | c3 :: r4 =>
                if c3 = ',' then
                  match pF r4 with
                  | none => none
                  | some (fs, r5) => some ((k, v) :: fs, r5)
                else some ([(k, v)], c3 :: r4)
          else none
    else none

/-- Fuel-indexed triple of JSON parsers (value, items, fields). -/
def jparseAll : Nat →
    (List Char → Option (JVal × List Char)) ×
    (List Char → Option (List JVal × List Char)) ×
    (List Char → Option (List (List Char × JVal) × List Char))
  | 0 => ⟨fun _ => none, fun _ => none, fun _ => none⟩
  | fuel+1 =>
    let p := jparseAll fuel
    ⟨jparseVBody p.2.1 p.2.2, jparseItemsBody p.1 p.2.1,
      jparseFieldsBody p.1 p.2.2⟩

def jparseV (fuel : Nat) (cs : List Char) : Option (JVal × List Char) :=
  (jparseAll fuel).1 cs

def jparseItems (fuel : Nat) (cs : List Char) : Option (List JVal × List Char) :=
  (jparseAll fuel).2.1 cs

def jparseFields (fuel : Nat) (cs : List Char) :
    Option (List (List Char × JVal) × List Char) :=
  (jparseAll fuel).2.2 cs

/-- `json.loads`: parse a complete JSON value (whole input consumed). -/
def jparse (cs : List Char) : Option JVal :=
  match jparseV (cs.length + 1) cs with
  | some (v, []) => some v
  | _ => none

mutual

/-- Size measure used to bound the parser fuel. -/
def jsize : JVal → Nat
  | JVal.jnull => 1
  | JVal.jbool _ => 1
  | JVal.jint _ => 1
  | JVal.jstr _ => 1
  | JVal.jarr xs => 1 + jsizeItems xs
  | JVal.jobj fs => 1 + jsizeFields fs

def jsizeItems : List JVal → Nat
  | [] => 0
  | x :: rest => 1 + jsize x + jsizeItems rest

def jsizeFields : List (List Char × JVal) → Nat
  | [] => 0
  | f :: rest => 1 + jsize f.2 + jsizeFields rest
end

/-- The rest of the input after a literal must not begin with a digit for
the digit run to stop there. -/
def headNotDig (l : List Char) : Prop :=
  ∀ c tl, l = c :: tl → isDig c = false

/-!
## The CSV table layer of `StaticCache`

A written CSV artifact is modelled column-major (name and cell strings per
column); `df.to_csv` / `pd.read_csv(..., keep_default_na=False)` round-trip
the cell text itself (pandas quoting), so the model keeps cells as strings
and reproduces the reader's per-column type inference: a column whose every
cell parses as an integer comes back as integers, else as booleans when
every cell is a boolean literal, else as strings (floats are omitted along
with the rest of the float value space; the empty cell — `None`/`NaN` on
write — stays a string and is mapped back to `None` by `_parse_cell`).
-/

/-- Per-cell Python-to-CSV text: `json.dumps` for dict/list
(`write_table`), `''` for `None`, `str` for ints and bools, the string
itself otherwise (`DataFrame.to_csv`). -/
def cellOut : JVal → List Char
  | JVal.jobj fs => jenc (JVal.jobj fs)
  | JVal.jarr xs => jenc (JVal.jarr xs)
  | JVal.jnull => []
  | JVal.jint n => intChars n
  | JVal.jbool b => if b then ['T', 'r', 'u', 'e'] else ['F', 'a', 'l', 's', 'e']
  | JVal.jstr s => s

/-- The boolean literals the CSV reader recognises. -/
def boolLits : List (List Char) :=
  [['T', 'r', 'u', 'e'], ['F', 'a', 'l', 's', 'e'],
   ['T', 'R', 'U', 'E'], ['F', 'A', 'L', 'S', 'E'],
   ['t', 'r', 'u', 'e'], ['f', 'a', 'l', 's', 'e']]

def trueLits : List (List Char) :=
  [['T', 'r', 'u', 'e'], ['T', 'R', 'U', 'E'], ['t', 'r', 'u', 'e']]

def isBoolLit (cs : List Char) : Bool := decide (cs ∈ boolLits)

/-- A cell that parses as a decimal integer. -/
def isIntLit : List Char → Bool
  | [] => false
  | c :: ds =>
    if c = '-' then !ds.isEmpty && ds.all isDig
    else (c :: ds).all isDig

def parseIntLit : List Char → Int
  | [] => 0
  | c :: ds =>
    if c = '-' then -(digitsToNat ds : Int) else (digitsToNat (c :: ds) : Int)

/-- `pd.read_csv` per-column type inference (restricted to the modelled
value space). -/
def inferColumn (cells : List (List Char)) : List JVal :=
  if cells.all isIntLit then cells.map (fun c => JVal.jint (parseIntLit c))
  else if cells.all isBoolLit then
    cells.map (fun c => JVal.jbool (decide (c ∈ trueLits)))
  else cells.map JVal.jstr

def isWsC (c : Char) : Bool := c = ' ' || c = '\t' || c = '\n' || c = '\r'

/-- Python `str.strip()` (on the whitespace the model covers). -/
def trimChars (cs : List Char) : List Char :=
  ((cs.dropWhile isWsC).reverse.dropWhile isWsC).reverse

/-- `StaticCache._parse_cell`: non-strings unchanged; the empty string
becomes `None`; a stripped string starting with a brace, bracket or quote is
JSON-decoded, keeping the original on failure. -/
def parseCell : JVal → JVal
  | JVal.jstr s =>
    if s.isEmpty then JVal.jnull
    else
      match trimChars s with
      | [] => JVal.jstr s
      | c :: t =>
        if c = '\x7b' || c = '[' || c = '"' then
          match jparse (c :: t) with
          | some v => v
          | none => JVal.jstr s
        else JVal.jstr s
  | v => v

/-- A table row: one dict of column values. -/
abbrev Row := List (List Char × JVal)

/-- First-occurrence deduplication (pandas column union order). -/
def dedupFirstAux : List (List Char) → List (List Char) → List (List Char)
  | [], _ => []
  | k :: rest, seen =>
    if k ∈ seen then dedupFirstAux rest seen
    else k :: dedupFirstAux rest (k :: seen)

def dedupFirst (l : List (List Char)) : List (List Char) := dedupFirstAux l []

/-- A written CSV artifact, column-major. -/
structure CsvFile where
  nrows : Nat
  cols : List (List Char × List (List Char))
deriving DecidableEq, Repr

/-- The value a `DataFrame` built from `rows` holds at `(row, key)`
(`NaN`, written as the empty cell, for a missing key). -/
def rowVal (k : List Char) (r : Row) : JVal := (aget k r).getD JVal.jnull

/-- `pd.DataFrame(csv_rows)` followed by `to_csv`: columns are the union of
the row keys in first-appearance order. -/
def mkCsv (rows : List Row) : CsvFile :=
  let ks := dedupFirst (rows.foldr (fun r acc => r.map Prod.fst ++ acc) [])
  { nrows := rows.length
    cols := ks.map (fun k => (k, rows.map (fun r => cellOut (rowVal k r)))) }

/-- Rebuild row dicts from parsed columns (`df.to_dict(orient="records")`). -/
def zipCols (n : Nat) (pcols : List (List Char × List JVal)) : List Row :=
  match n with
  | 0 => []
  | n+1 =>
    pcols.map (fun p => (p.1, p.2.headD JVal.jnull)) ::
      zipCols n (pcols.map (fun p => (p.1, p.2.tail)))

/-- `read_csv` + `to_dict` + `_parse_cell` over a stored artifact. -/
def readTableRows (f : CsvFile) : List Row :=
  zipCols f.nrows (f.cols.map (fun p => (p.1, (inferColumn p.2).map parseCell)))

/-!
## `StaticCache` state, `get`, `read_table`, `write_table`
-/

/-- One entry of `cache_index.json` (the fields `_update_index_and_meta`
writes). -/
structure CacheEntry where
  cached_at : Int
  ttl_days : Int
  path : String
  record_count : Option Nat := none
deriving DecidableEq, Repr

/-- One entry of a per-directory `.meta.json` (informational mirror). -/
structure MetaEntry where
  cached_at : Int
  ttl_days : Int
  record_count : Option Nat := none
deriving DecidableEq, Repr

/-- The on-disk state a `StaticCache` manages: the central index, the data
files (keyed by their subpath), and the `.meta.json` entries (keyed by the
file subpath they describe). -/
structure StaticCacheState where
  entries : List (String × CacheEntry)
  files : List (String × CsvFile)
  metas : List (String × MetaEntry)
deriving DecidableEq, Repr

/-- `StaticCache._is_entry_valid`: `now < cached_at + timedelta(days=ttl_days)`. -/
def isEntryValid (now : Int) (e : CacheEntry) : Bool :=
  decide (now < e.cached_at + e.ttl_days * 86400)

/-- `StaticCache.get`: the index entry if present, within TTL and with its
backing file on disk; `None` otherwise. -/
def scGet (st : StaticCacheState) (now : Int) (key : String) : Option CacheEntry :=
  match aget key st.entries with
  | none => none
  | some e =>
    if !isEntryValid now e then none
    else if (aget e.path st.files).isSome then some e else none

/-- `StaticCache.is_valid`. -/
def scIsValid (st : StaticCacheState) (now : Int) (key : String) : Bool :=
  match aget key st.entries with
  | none => false
  | some e => isEntryValid now e

/-- `StaticCache.read_table`: the stored rows when `get` hits (a read error
on a present file is a miss; files in the model are structurally valid). -/
def scReadTable (st : StaticCacheState) (now : Int) (key : String) :
    Option (List Row) :=
  match scGet st now key with
  | none => none
  | some e =>
    match aget e.path st.files with
    | none => none
    | some f => some (readTableRows f)

/-- `StaticCache.write_table`: no-op on empty rows, else write the CSV and
update the central index and the directory meta. -/
def scWriteTable (st : StaticCacheState) (now : Int) (key : String)
    (rows : List Row) (ttl_days : Int) (path : String) : StaticCacheState :=
  if rows.isEmpty then st
  else
    { entries := aput key
        { cached_at := now, ttl_days := ttl_days, path := path,
          record_count := some rows.length } st.entries
      files := aput path (mkCsv rows) st.files
      metas := aput path
        { cached_at := now, ttl_days := ttl_days,
          record_count := some rows.length } st.metas }

/-- Heads that make a bare string unsafe in a CSV cell: the CSV reader or
`_parse_cell` could re-type it (digits and sign/decimal heads for numbers,
whitespace because the reader and `strip()` interact with it, and the three
JSON trigger characters). -/
def badHead (c : Char) : Bool :=
  isDig c || c = '-' || c = '+' || c = '.' || isWsC c ||
    c = '\x7b' || c = '[' || c = '"'

/-- A string cell that round-trips as itself. -/
def isSafeStr : List Char → Bool
  | [] => false
  | c :: tl => !(badHead c) && !(isBoolLit (c :: tl))

/-- Values that survive in a string-typed column. -/
def NestedOrSafe : JVal → Prop
  | JVal.jobj _ => True
  | JVal.jarr _ => True
  | JVal.jnull => True
  | JVal.jstr s => isSafeStr s = true
  | JVal.jint _ => False
  | JVal.jbool _ => False

/-- A column whose values the CSV layer round-trips: all integers, all
booleans, or each value a dict, list, `None`, or safe string. -/
def ColumnOK (vs : List JVal) : Prop :=
  (∀ v ∈ vs, ∃ n, v = JVal.jint n) ∨
  (∀ v ∈ vs, ∃ b, v = JVal.jbool b) ∨
  (∀ v ∈ vs, NestedOrSafe v)

/-!
## `_cluster_alphas` (`correlation_tools.py`)

Union-find over candidate ids.  The source's `find` performs grandparent
path compression while chasing; compression only shortens chains and never
changes the returned root, so the model chases the parent map directly
(fuel-bounded; the map built by `union` is a forest, and
`parent.length + 1` steps always reach the root — proved below).
-/

/-- The pairwise intra-correlation matrix handed to `_cluster_alphas`
(`intra_df`): row/column label sets and the entry accessor `.loc`. -/
structure IntraDf where
  idx : List String
  cols : List String
  val : String → String → ℚ

/-- `float(intra_df.loc[a1, a2]) if a1 in intra_df.index and a2 in
intra_df.columns else 0.0`. -/
def pairVal (df : IntraDf) (a1 a2 : String) : ℚ :=
  if a1 ∈ df.idx ∧ a2 ∈ df.cols then df.val a1 a2 else 0

/-- The pairs `(a1, a2, round(val, 2))` contributed by one outer-loop
candidate `a1` against the ids after it. -/
def pairsFor (df : IntraDf) (thr : ℚ) (a1 : String) (others : List String) :
    List (String × String × ℚ) :=
  others.filterMap (fun a2 =>
    if thr ≤ |pairVal df a1 a2| then some (a1, a2, round2 (pairVal df a1 a2))
    else none)

/-- The `pairs` list: all `i < j` pairs with `|correlation| ≥ threshold`. -/
def allPairs (df : IntraDf) (thr : ℚ) : List String → List (String × String × ℚ)
  | [] => []
  | a1 :: rest => pairsFor df thr a1 rest ++ allPairs df thr rest

/-- `find(x)`: chase the parent map to the root (fuel-bounded chase;
the source's path compression is a performance detail that preserves the
root). -/
def ufFind (fuel : Nat) (parent : List (String × String)) (x : String) : String :=
  match fuel with
  | 0 => x
  | fuel+1 =>
    match aget x parent with
    | none => x
    | some y => ufFind fuel parent y

/-- The root of `x` in the parent forest. -/
def ufRoot (parent : List (String × String)) (x : String) : String :=
  ufFind (parent.length + 1) parent x

/-- `union(a, b)`: link root to root when they differ. -/
def ufUnion (parent : List (String × String)) (a b : String) :
    List (String × String) :=
  let ra := ufRoot parent a
  let rb := ufRoot parent b
  if ra = rb then parent else (ra, rb) :: parent

/-- `for a1, a2, _ in pairs: union(a1, a2)` starting from the empty map. -/
def ufBuild (pairs : List (String × String × ℚ)) : List (String × String) :=
  pairs.foldl (fun p q => ufUnion p q.1 q.2.1) []

/-- First-occurrence dedup over strings (Python dict key order). -/
def sdedupAux : List String → List String → List String
  | [], _ => []
  | k :: rest, seen =>
    if k ∈ seen then sdedupAux rest seen
    else k :: sdedupAux rest (k :: seen)

def sdedup (l : List String) : List String := sdedupAux l []

/-- `clusters: defaultdict(list); for aid in alpha_ids:
clusters[find(aid)].append(aid)` — keyed by root in first-occurrence order,
members in `alpha_ids` order. -/
def clusterGroups (alphaIds : List String) (parent : List (String × String)) :
    List (String × List String) :=
  (sdedup (alphaIds.map (ufRoot parent))).map
    (fun rt => (rt, alphaIds.filter (fun a => decide (ufRoot parent a = rt))))

/-- `id_to_sharpe.get(a, 0)`. -/
def sharpeOf (idToSharpe : List (String × ℚ)) (a : String) : ℚ :=
  (aget a idToSharpe).getD 0

/-- Maximum of a list of rationals (`max(...)`); `none` on empty input. -/
def listMaxQ : List ℚ → Option ℚ
  | [] => none
  | x :: rest =>
    match listMaxQ rest with
    | none => some x
    | some m => some (max x m)

/-- `max(id_to_sharpe.get(a, 0) for a in members)` (groups are nonempty). -/
def bestSharpe (idToSharpe : List (String × ℚ)) (ms : List String) : ℚ :=
  (listMaxQ (ms.map (sharpeOf idToSharpe))).getD 0

/-- `sorted(clusters.items(), key=best Sharpe, reverse=True)` — Python's
sort is stable; `insertionSort` with this relation is stable too. -/
def sortedGroups (idToSharpe : List (String × ℚ))
    (gs : List (String × List String)) : List (String × List String) :=
  gs.insertionSort
    (fun g1 g2 => bestSharpe idToSharpe g2.2 ≤ bestSharpe idToSharpe g1.2)

/-- `sorted(members, key=sharpe, reverse=True)` (stable). -/
def sortMembers (idToSharpe : List (String × ℚ)) (ms : List String) : List String :=
  ms.insertionSort (fun a b => sharpeOf idToSharpe b ≤ sharpeOf idToSharpe a)

/-- One output row of `_cluster_alphas`.  `correlated_with` is modelled as
the (partner id, rounded correlation) pairs the source formats into the
note string; `clusterIdx` is the numeral of the `cluster` label. -/
structure ClusterRow where
  alpha_id : String
  sharpe : ℚ
  clusterIdx : Nat
  cluster : String
  recommend : String
  correlated_with : List (String × ℚ)
deriving DecidableEq, Repr

/-- The partner notes of one member: every pair it appears in, with the
partner id and the pair's rounded correlation. -/
def partnerNotes (pairs : List (String × String × ℚ)) (aid : String) :
    List (String × ℚ) :=
  pairs.filterMap (fun q =>
    if q.1 = aid then some (q.2.1, q.2.2)
    else if q.2.1 = aid then some (q.1, q.2.2)
    else none)

/-- The rows one cluster contributes: members sorted by Sharpe descending,
the first one recommended `SUBMIT`, the others `SKIP`. -/
def groupRows (idToSharpe : List (String × ℚ)) (pairs : List (String × String × ℚ))
    (ci : Nat) (g : String × List String) : List ClusterRow :=
  let ms := sortMembers idToSharpe g.2
  let best := ms.headD ""
  ms.map (fun aid =>
    { alpha_id := aid
      sharpe := sharpeOf idToSharpe aid
      clusterIdx := ci
      cluster := "C" ++ toString ci
      recommend := if aid = best then "SUBMIT" else "SKIP"
      correlated_with := partnerNotes pairs aid })

/-- Emit the rows of the sorted clusters, labeled `C1, C2, …`. -/
def rowsOf (idToSharpe : List (String × ℚ)) (pairs : List (String × String × ℚ)) :
    Nat → List (String × List String) → List ClusterRow
  | _, [] => []
  | ci, g :: rest =>
    groupRows idToSharpe pairs ci g ++ rowsOf idToSharpe pairs (ci + 1) rest

/-- The candidate ids `[a for a in intra_df.columns if a in id_to_sharpe]`. -/
def clusterAlphaIds (df : IntraDf) (idToSharpe : List (String × ℚ)) : List String :=
  df.cols.filter (fun a => (aget a idToSharpe).isSome)

/-- `_cluster_alphas(intra_df, id_to_sharpe, corr_threshold)`. -/
def clusterAlphas (df : IntraDf) (idToSharpe : List (String × ℚ)) (thr : ℚ) :
    List ClusterRow :=
  let alphaIds := clusterAlphaIds df idToSharpe
  let pairs := allPairs df thr alphaIds
  let parent := ufBuild pairs
  rowsOf idToSharpe pairs 1 (sortedGroups idToSharpe (clusterGroups alphaIds parent))

/-- Witness input for C7 (amended): one row with a nested dict, a safe
string, and a `None`. -/
def c7rows : List Row :=
  [[(['a'], JVal.jobj [(['x'], JVal.jint 1)]),
    (['b'], JVal.jstr ['h', 'i']),
    (['c'], JVal.jnull)]]

/-- The written table of the C7 counterexample: one row whose value is the
string "7". -/
def c7badRows : List Row := [[(['a'], JVal.jstr ['7'])]]

/-- Written from the spec (§4.4 step 4): the claimed *single* cutoff,
anchored on the candidate's latest observed date, to be applied to both
series. -/
def specCandCutoff (candidate : Frame) (years : Int) : Int :=
  match listMax (frameDates candidate) with
  | none => 0
  | some last => mkDate (anchorYearOf last - years) 1 1

/-- The candidate of the spec's trimming example: history spanning
2019-01-01 .. 2024-08-15. -/
def c3cand : Frame := [("A", [(mkDate 2019 1 1, 1), (mkDate 2024 8 15, 1)])]

/-- A baseline series whose own latest date (2016-06-01) is far before the
candidate's. -/
def c3base : Frame := [("B", [(mkDate 2016 6 1, 1)])]

/-- A trivially empty remote environment for concrete checks. -/
def envW : CheckEnv :=
  { loaded := none
    disk0 := []
    sync := { roster := [], fetchSeries := fun _ => none }
    candSeriesOf := fun _ => []
    regionOf := fun _ => ""
    kernel := fun _ => none }

/-- Concrete response of the C1 witness: one SELF check against an empty
cache. -/
def c1respW : CorrelationCheckResponse :=
  { alpha_id := "a"
    threshold := 1
    check_types := [CorrType.SELF]
    checks := [(CorrType.SELF, { passes_check := true })]
    all_passed := true }

/-- A concrete sync environment for exercising `syncBaseline`: the remote
roster holds Y and Z and every per-alpha fetch succeeds. -/
def c5envW : SyncEnv :=
  { roster := [("Y", {}), ("Z", {})]
    fetchSeries := fun _ => some [] }

/-- A concrete cached index (alphas X and Y) for exercising `syncBaseline`. -/
def c5loaded : Option (List (String × AlphaIndexEntry)) :=
  some [("X", {}), ("Y", {})]

/-- A one-alpha baseline roster (alpha B in region USA) for exercising the
success path of `fetch_correlation`. -/
def c4alphas : List (String × AlphaIndexEntry) := [("B", { region := "USA" })]

/-- Thirty consecutive observation dates. -/
def c4dates : List Int := (List.range 30).map (fun n => (n : Int))

/-- The cached baseline returns of alpha B over the thirty dates. -/
def c4base : Series := c4dates.map (fun d => (d, (1 : ℚ)))

/-- The candidate returns of alpha A over the thirty dates. -/
def c4cand : Series := c4dates.map (fun d => (d, (2 : ℚ)))

/-- A correlation kernel that reports correlation 1 for every column. -/
def c4kernel : CorrKernel := fun _ => some 1

/-!
## Union-find correctness

`ReachesIn p k x r` says the parent chase starting from `x` ends at the
root `r` (an id with no parent entry) in exactly `k` steps.  `Conn ps` is
the connectivity generated by a pair list, i.e. the "chain of correlated
pairs" relation of the clustering contract.
-/

inductive ReachesIn (p : List (String × String)) : Nat → String → String → Prop
  | root (x : String) : aget x p = none → ReachesIn p 0 x x
  | step (k : Nat) (x y r : String) :
      aget x p = some y → ReachesIn p k y r → ReachesIn p (k + 1) x r

/-- Connectivity: the reflexive-symmetric-transitive closure of the edges
listed in a pair list. -/
inductive Conn (ps : List (String × String × ℚ)) : String → String → Prop
  | refl (x : String) : Conn ps x x
  | symm {x y : String} : Conn ps x y → Conn ps y x
  | trans {x y z : String} : Conn ps x y → Conn ps y z → Conn ps x z
  | edge (x y : String) (c : ℚ) : (x, y, c) ∈ ps → Conn ps x y

/-- The parent map is well-founded: every chase reaches a root within
`p.length` steps. -/
def UFInv (p : List (String × String)) : Prop :=
  ∀ x, ∃ r k, ReachesIn p k x r ∧ k ≤ p.length

/-- The spec's clustering example: candidates A, B, C with
`|corr(A, B)| = 0.8` and C uncorrelated. -/
def c8df : IntraDf :=
  { idx := ["A", "B", "C"]
    cols := ["A", "B", "C"]
    val := fun a b =>
      if (a = "A" ∧ b = "B") ∨ (a = "B" ∧ b = "A") then 4/5 else 0 }

/-- Sharpes for the clustering example: A 2.0, B 1.5, C 1.0. -/
def c8sharpe : List (String × ℚ) := [("A", 2), ("B", 3/2), ("C", 1)]

/-- The row the example emits for A (cluster C1, SUBMIT). -/
def c8rowA : ClusterRow :=
  { alpha_id := "A"
    sharpe := 2
    clusterIdx := 1
    cluster := "C1"
    recommend := "SUBMIT"
    correlated_with := [("B", 4/5)] }

/-- The row the example emits for B (cluster C1, SKIP). -/
def c8rowB : ClusterRow :=
  { alpha_id := "B"
    sharpe := 3/2
    clusterIdx := 1
    cluster := "C1"
    recommend := "SKIP"
    correlated_with := [("A", 4/5)] }

theorem aget_eq_none {κ α : Type} [DecidableEq κ] (k : κ) (l : List (κ × α)) :
    aget k l = none ↔ k ∉ l.map Prod.fst := by
  induction l with
  | nil => simp [aget]
  | cons p rest ih =>
    obtain ⟨k1, v⟩ := p
    by_cases h : k1 = k
    · subst h; simp [aget]
    · simp only [aget, h, if_false, List.map_cons, List.mem_cons, ih]
      constructor
      · intro hn hc
        rcases hc with hc | hc
        · exact h hc.symm
        · exact hn hc
      · intro hn hc; exact hn (Or.inr hc)

theorem aget_isSome {κ α : Type} [DecidableEq κ] (k : κ) (l : List (κ × α)) :
    (aget k l).isSome = true ↔ k ∈ l.map Prod.fst := by
  rw [Option.isSome_iff_ne_none, ne_eq, aget_eq_none, not_not]

theorem aget_aput_self {κ α : Type} [DecidableEq κ] (k : κ) (v : α) (l : List (κ × α)) :
    aget k (aput k v l) = some v := by
  induction l with
  | nil => simp [aput, aget]
  | cons p rest ih =>
    obtain ⟨k1, w⟩ := p
    by_cases hk : k1 = k
    · simp [aput, hk, aget]
    · simp [aput, hk, aget, ih]

theorem aget_aput_ne {κ α : Type} [DecidableEq κ] (k k2 : κ) (v : α) (l : List (κ × α))
    (h : k2 ≠ k) : aget k2 (aput k v l) = aget k2 l := by
  have hne : ¬ (k = k2) := fun hh => h hh.symm
  induction l with
  | nil => simp [aput, aget, hne]
  | cons p rest ih =>
    obtain ⟨k1, w⟩ := p
    by_cases hk : k1 = k
    · subst hk
      simp [aput, aget, hne]
    · simp [aput, hk, aget, ih]

theorem aget_adel_self {κ α : Type} [DecidableEq κ] (k : κ) (l : List (κ × α)) :
    aget k (adel k l) = none := by
  induction l with
  | nil => rfl
  | cons p rest ih =>
    obtain ⟨k1, v⟩ := p
    by_cases hk : k1 = k
    · simpa [adel, hk] using ih
    · simpa [adel, hk, aget] using ih

theorem aget_adel_ne {κ α : Type} [DecidableEq κ] (k k2 : κ) (l : List (κ × α))
    (h : k2 ≠ k) : aget k2 (adel k l) = aget k2 l := by
  have h2 : ¬ (k = k2) := fun hh => h hh.symm
  induction l with
  | nil => rfl
  | cons p rest ih =>
    obtain ⟨k1, v⟩ := p
    by_cases hk : k1 = k
    · subst hk
      simp [adel, aget, h2, ih]
    · simp [adel, hk, aget, ih]

theorem listMax_mem : ∀ (l : List Int) (m : Int), listMax l = some m → m ∈ l := by
  intro l
  induction l with
  | nil => intro m h; simp [listMax] at h
  | cons x rest ih =>
    intro m h
    simp only [listMax] at h
    cases hr : listMax rest with
    | none => rw [hr] at h; simp at h; simp [h]
    | some v =>
      rw [hr] at h
      simp only [Option.some.injEq] at h
      rcases max_choice x v with hc | hc
      · rw [hc] at h; simp [h]
      · rw [hc] at h; subst h; exact List.mem_cons_of_mem x (ih v hr)

theorem listMax_le : ∀ (l : List Int) (m : Int), listMax l = some m →
    ∀ x ∈ l, x ≤ m := by
  intro l
  induction l with
  | nil => intro m h; simp [listMax] at h
  | cons y rest ih =>
    intro m h x hx
    simp only [listMax] at h
    cases hr : listMax rest with
    | none =>
      rw [hr] at h
      simp only [Option.some.injEq] at h
      have : rest = [] := by
        cases rest with
        | nil => rfl
        | cons a b => simp [listMax] at hr; cases hra : listMax b <;> simp [hra] at hr
      subst this
      simp at hx
      omega
    | some v =>
      rw [hr] at h
      simp only [Option.some.injEq] at h
      simp at hx
      rcases hx with hx | hx
      · subst hx; omega
      · have := ih v hr x hx; omega

theorem jparseV_succ (fuel : Nat) (cs : List Char) :
    jparseV (fuel + 1) cs
      = jparseVBody (jparseItems fuel) (jparseFields fuel) cs := rfl

theorem jparseItems_succ (fuel : Nat) (cs : List Char) :
    jparseItems (fuel + 1) cs
      = jparseItemsBody (jparseV fuel) (jparseItems fuel) cs := rfl

theorem jparseFields_succ (fuel : Nat) (cs : List Char) :
    jparseFields (fuel + 1) cs
      = jparseFieldsBody (jparseV fuel) (jparseFields fuel) cs := rfl

/-!
### Correctness of the decimal and JSON codecs
-/

theorem isDig_digitChar (n : Nat) : isDig (digitChar n) = true := by
  unfold digitChar
  split <;> decide

theorem dval_digitChar (n : Nat) (h : n < 10) : dval (digitChar n) = n := by
  interval_cases n <;> decide

theorem digitsToNat_append_one (ds : List Char) (c : Char) :
    digitsToNat (ds ++ [c]) = 10 * digitsToNat ds + dval c := by
  unfold digitsToNat
  rw [List.foldl_append]
  rfl

theorem natDigitsAux_spec (fuel : Nat) : ∀ n, n < fuel →
    (natDigitsAux fuel n).all isDig = true ∧ natDigitsAux fuel n ≠ [] ∧
      digitsToNat (natDigitsAux fuel n) = n := by
  induction fuel with
  | zero => intro n h; omega
  | succ fuel ih =>
    intro n h
    by_cases h10 : n < 10
    · refine ⟨?_, ?_, ?_⟩
      · simp [natDigitsAux, h10, isDig_digitChar]
      · simp [natDigitsAux, h10]
      · simp only [natDigitsAux, h10, if_true]
        have : digitsToNat [digitChar n] = dval (digitChar n) := by
          simp [digitsToNat, List.foldl]
        rw [this, dval_digitChar n h10]
    · have hdiv : n / 10 < fuel := by
        have : n / 10 < n := Nat.div_lt_self (by omega) (by omega)
        omega
      obtain ⟨ha, hne, hv⟩ := ih (n / 10) hdiv
      refine ⟨?_, ?_, ?_⟩
      · simp only [natDigitsAux, h10, if_false, List.all_append, ha,
          Bool.true_and, List.all_cons, List.all_nil, isDig_digitChar,
          Bool.and_true]
      · simp [natDigitsAux, h10]
      · simp only [natDigitsAux, h10, if_false]
        rw [digitsToNat_append_one, hv, dval_digitChar (n % 10) (Nat.mod_lt n (by omega))]
        omega

theorem natDigits_all_dig (n : Nat) : (natDigits n).all isDig = true :=
  (natDigitsAux_spec (n + 1) n (Nat.lt_succ_self n)).1

theorem natDigits_ne_nil (n : Nat) : natDigits n ≠ [] :=
  (natDigitsAux_spec (n + 1) n (Nat.lt_succ_self n)).2.1

theorem digitsToNat_natDigits (n : Nat) : digitsToNat (natDigits n) = n :=
  (natDigitsAux_spec (n + 1) n (Nat.lt_succ_self n)).2.2

theorem headNotDig_nil : headNotDig [] := by
  intro c tl h; cases h

theorem headNotDig_cons (c : Char) (tl : List Char) (h : isDig c = false) :
    headNotDig (c :: tl) := by
  intro c2 tl2 he
  cases he; exact h

theorem takeWhile_all_append (p : Char → Bool) (ds rest : List Char)
    (h1 : ds.all p = true) (h2 : ∀ c tl, rest = c :: tl → p c = false) :
    (ds ++ rest).takeWhile p = ds := by
  induction ds with
  | nil =>
    simp only [List.nil_append]
    cases rest with
    | nil => rfl
    | cons c tl => simp [List.takeWhile, h2 c tl rfl]
  | cons d tl ih =>
    simp only [List.all_cons, Bool.and_eq_true] at h1
    simp [List.takeWhile, h1.1, ih h1.2]

theorem drop_len_append (ds rest : List Char) :
    (ds ++ rest).drop ds.length = rest := by
  induction ds with
  | nil => rfl
  | cons d tl ih => simp only [List.cons_append, List.length_cons, List.drop_succ_cons]; exact ih

theorem parseNatChars_enc (m : Nat) (rest : List Char) (h : headNotDig rest) :
    parseNatChars (natDigits m ++ rest) = some (m, rest) := by
  unfold parseNatChars
  rw [takeWhile_all_append isDig (natDigits m) rest (natDigits_all_dig m) h]
  have hne : (natDigits m).isEmpty = false := by
    cases hd : natDigits m with
    | nil => exact absurd hd (natDigits_ne_nil m)
    | cons a b => rfl
  simp only [hne, Bool.false_eq_true, if_false, digitsToNat_natDigits,
    drop_len_append]

theorem isDig_ne (c c0 : Char) (hd : isDig c = true) (h0 : isDig c0 = false) :
    ¬ (c = c0) := by
  intro he; rw [he] at hd; rw [hd] at h0; cases h0

theorem parseIntChars_enc (n : Int) (rest : List Char) (h : headNotDig rest) :
    parseIntChars (intChars n ++ rest) = some (n, rest) := by
  by_cases hn : n < 0
  · simp only [intChars, hn, if_true, List.cons_append]
    simp [parseIntChars, parseNatChars_enc (-n).toNat rest h]
    omega
  · simp only [intChars, hn, if_false]
    obtain ⟨c, tl, hct⟩ : ∃ c tl, natDigits n.toNat = c :: tl := by
      cases hd : natDigits n.toNat with
      | nil => exact absurd hd (natDigits_ne_nil _)
      | cons a b => exact ⟨a, b, rfl⟩
    have hdig : isDig c = true := by
      have hall := natDigits_all_dig n.toNat
      rw [hct] at hall
      simp only [List.all_cons, Bool.and_eq_true] at hall
      exact hall.1
    rw [hct, List.cons_append]
    simp only [parseIntChars]
    rw [if_neg (isDig_ne c '-' hdig (by decide))]
    rw [show c :: (tl ++ rest) = natDigits n.toNat ++ rest by rw [hct]; rfl]
    rw [parseNatChars_enc n.toNat rest h]
    simp [Int.toNat_of_nonneg (by omega : (0:ℤ) ≤ n)]

theorem parseStrBody_enc (s : List Char) (rest : List Char) :
    parseStrBody (escString s ++ '"' :: rest) = some (s, rest) := by
  induction s with
  | nil =>
    simp only [escString, List.nil_append]
    rw [parseStrBody.eq_def]
    simp
  | cons c tl ih =>
    by_cases hc : (c = '"' || c = '\\') = true
    · simp only [escString, hc, if_true, List.cons_append]
      rw [parseStrBody.eq_def]
      simp [ih]
    · simp only [Bool.or_eq_true, decide_eq_true_eq] at hc
      push_neg at hc
      simp only [escString, List.cons_append]
      rw [if_neg (by simp [hc.1, hc.2])]
      rw [parseStrBody.eq_def]
      simp [hc.1, hc.2, ih]

theorem jsize_pos (v : JVal) : 1 ≤ jsize v := by
  cases v <;> simp [jsize]

theorem jsizeItems_pos (x : JVal) (xs : List JVal) :
    1 ≤ jsizeItems (x :: xs) := by
  simp [jsizeItems]; omega

theorem intChars_head (n : Int) :
    ∃ c tl, intChars n = c :: tl ∧ (c = '-' ∨ isDig c = true) := by
  by_cases hn : n < 0
  · exact ⟨'-', natDigits (-n).toNat, by simp [intChars, hn], Or.inl rfl⟩
  · obtain ⟨c, tl, hct⟩ : ∃ c tl, natDigits n.toNat = c :: tl := by
      cases hd : natDigits n.toNat with
      | nil => exact absurd hd (natDigits_ne_nil _)
      | cons a b => exact ⟨a, b, rfl⟩
    refine ⟨c, tl, by simp [intChars, hn, hct], Or.inr ?_⟩
    have hall := natDigits_all_dig n.toNat
    rw [hct] at hall
    simp only [List.all_cons, Bool.and_eq_true] at hall
    exact hall.1

theorem jenc_head_cases (v : JVal) :
    ∃ c tl, jenc v = c :: tl ∧
      (c = 'n' ∨ c = 't' ∨ c = 'f' ∨ c = '"' ∨ c = '[' ∨ c = '\x7b' ∨
        c = '-' ∨ isDig c = true) := by
  cases v with
  | jnull => exact ⟨'n', _, rfl, by tauto⟩
  | jbool b =>
    cases b with
    | true => exact ⟨'t', _, rfl, by tauto⟩
    | false => exact ⟨'f', _, rfl, by tauto⟩
  | jint n =>
    obtain ⟨c, tl, hct, hc⟩ := intChars_head n
    exact ⟨c, tl, by simp [jenc, hct], by tauto⟩
  | jstr s => exact ⟨'"', _, rfl, by tauto⟩
  | jarr xs => exact ⟨'[', _, rfl, by tauto⟩
  | jobj fs => exact ⟨'\x7b', _, rfl, by tauto⟩

theorem valHead_ne (c : Char)
    (hc : c = 'n' ∨ c = 't' ∨ c = 'f' ∨ c = '"' ∨ c = '[' ∨ c = '\x7b' ∨
      c = '-' ∨ isDig c = true)
    (c0 : Char) (h0 : isDig c0 = false)
    (hlit : ¬ ('n' = c0) ∧ ¬ ('t' = c0) ∧ ¬ ('f' = c0) ∧ ¬ ('"' = c0) ∧
      ¬ ('[' = c0) ∧ ¬ ('\x7b' = c0) ∧ ¬ ('-' = c0)) :
    ¬ (c = c0) := by
  obtain ⟨h1, h2, h3, h4, h5, h6, h7⟩ := hlit
  rcases hc with hc | hc | hc | hc | hc | hc | hc | hc <;>
    first
      | (subst hc; assumption)
      | (exact isDig_ne c c0 hc h0)

/-- The round-trip core: the fuel-indexed parsers invert the encoders. -/
theorem jparse_master (fuel : Nat) :
    (∀ v rest, jsize v ≤ fuel → headNotDig rest →
      jparseV fuel (jenc v ++ rest) = some (v, rest)) ∧
    (∀ xs rest, xs ≠ [] → jsizeItems xs ≤ fuel →
      jparseItems fuel (jencItems xs ++ ']' :: rest) = some (xs, ']' :: rest)) ∧
    (∀ fs rest, fs ≠ [] → jsizeFields fs ≤ fuel →
      jparseFields fuel (jencFields fs ++ '\x7d' :: rest) = some (fs, '\x7d' :: rest)) := by
  induction fuel with
  | zero =>
    refine ⟨?_, ?_, ?_⟩
    · intro v rest hsz _
      have := jsize_pos v; omega
    · intro xs rest hne hsz
      cases xs with
      | nil => exact absurd rfl hne
      | cons x tl => have := jsizeItems_pos x tl; omega
    · intro fs rest hne hsz
      cases fs with
      | nil => exact absurd rfl hne
      | cons f tl => simp [jsizeFields] at hsz
  | succ fuel ih =>
    obtain ⟨ihV, ihI, ihF⟩ := ih
    refine ⟨?_, ?_, ?_⟩
    · -- values
      intro v rest hsz hrest
      cases v with
      | jnull =>
        rw [show jenc JVal.jnull ++ rest = 'n' :: 'u' :: 'l' :: 'l' :: rest by simp [jenc]]
        rw [jparseV_succ]
        simp [jparseVBody]
      | jbool b =>
        cases b with
        | true =>
          rw [show jenc (JVal.jbool true) ++ rest = 't' :: 'r' :: 'u' :: 'e' :: rest by
            simp [jenc]]
          rw [jparseV_succ]
          simp [jparseVBody]
        | false =>
          rw [show jenc (JVal.jbool false) ++ rest
            = 'f' :: 'a' :: 'l' :: 's' :: 'e' :: rest by simp [jenc]]
          rw [jparseV_succ]
          simp [jparseVBody]
      | jint n =>
        obtain ⟨c, tl, hct, hc⟩ := intChars_head n
        have hcn : ¬ (c = 'n') := by
          rcases hc with hc | hc
          · subst hc; decide
          · exact isDig_ne c 'n' hc (by decide)
        have hctt : ¬ (c = 't') := by
          rcases hc with hc | hc
          · subst hc; decide
          · exact isDig_ne c 't' hc (by decide)
        have hcf : ¬ (c = 'f') := by
          rcases hc with hc | hc
          · subst hc; decide
          · exact isDig_ne c 'f' hc (by decide)
        have hcq : ¬ (c = '"') := by
          rcases hc with hc | hc
          · subst hc; decide
          · exact isDig_ne c '"' hc (by decide)
        have hcb : ¬ (c = '[') := by
          rcases hc with hc | hc
          · subst hc; decide
          · exact isDig_ne c '[' hc (by decide)
        have hco : ¬ (c = '\x7b') := by
          rcases hc with hc | hc
          · subst hc; decide
          · exact isDig_ne c '\x7b' hc (by decide)
        have hP : parseIntChars (c :: (tl ++ rest)) = some (n, rest) := by
          rw [show c :: (tl ++ rest) = intChars n ++ rest by rw [hct, List.cons_append]]
          exact parseIntChars_enc n rest hrest
        rw [show jenc (JVal.jint n) ++ rest = c :: (tl ++ rest) by simp [jenc, hct]]
        rw [jparseV_succ]
        simp [jparseVBody, hcn, hctt, hcf, hcq, hcb, hco, hP]
      | jstr s =>
        rw [show jenc (JVal.jstr s) ++ rest = '"' :: (escString s ++ '"' :: rest) by
          simp [jenc, encStr]]
        rw [jparseV_succ]
        simp [jparseVBody, parseStrBody_enc]
      | jarr xs =>
        cases xs with
        | nil =>
          rw [show jenc (JVal.jarr []) ++ rest = '[' :: ']' :: rest by
            simp [jenc, jencItems]]
          rw [jparseV_succ]
          simp [jparseVBody]
        | cons x xs2 =>
          obtain ⟨c, ctl, hct, hc⟩ := jenc_head_cases x
          have hdecomp : ∃ t, jencItems (x :: xs2) = c :: t := by
            cases xs2 with
            | nil => exact ⟨ctl, by simp [jencItems, hct]⟩
            | cons y r2 =>
              exact ⟨ctl ++ ',' :: jencItems (y :: r2), by simp [jencItems, hct]⟩
          obtain ⟨t, ht⟩ := hdecomp
          have hcne : ¬ (c = ']') := valHead_ne c hc ']' (by decide) (by decide)
          have hsz2 : jsizeItems (x :: xs2) ≤ fuel := by
            simp [jsize] at hsz; omega
          have hI : jparseItems fuel (c :: (t ++ ']' :: rest))
              = some (x :: xs2, ']' :: rest) := by
            rw [show c :: (t ++ ']' :: rest) = jencItems (x :: xs2) ++ ']' :: rest by
              rw [ht, List.cons_append]]
            exact ihI (x :: xs2) rest (by simp) hsz2
          rw [show jenc (JVal.jarr (x :: xs2)) ++ rest
            = '[' :: (c :: (t ++ ']' :: rest)) by simp [jenc, ht]]
          rw [jparseV_succ]
          simp [jparseVBody, hcne, hI]
      | jobj fs =>
        cases fs with
        | nil =>
          rw [show jenc (JVal.jobj []) ++ rest = '\x7b' :: '\x7d' :: rest by
            simp [jenc, jencFields]]
          rw [jparseV_succ]
          simp [jparseVBody]
        | cons f tl =>
          obtain ⟨k, v⟩ := f
          have hdecomp : ∃ t, jencFields ((k, v) :: tl) = '"' :: t := by
            cases tl with
            | nil =>
              exact ⟨(escString k ++ ['"']) ++ ':' :: jenc v, by
                simp [jencFields, encStr]⟩
            | cons g r2 =>
              exact ⟨(escString k ++ ['"']) ++ ':' :: jenc v ++ ',' :: jencFields (g :: r2), by
                simp [jencFields, encStr]⟩
          obtain ⟨t, ht⟩ := hdecomp
          have hsz2 : jsizeFields ((k, v) :: tl) ≤ fuel := by
            simp [jsize] at hsz; omega
          have hF : jparseFields fuel ('"' :: (t ++ '\x7d' :: rest))
              = some ((k, v) :: tl, '\x7d' :: rest) := by
            rw [show '"' :: (t ++ '\x7d' :: rest)
              = jencFields ((k, v) :: tl) ++ '\x7d' :: rest by
              rw [ht, List.cons_append]]
            exact ihF ((k, v) :: tl) rest (by simp) hsz2
          rw [show jenc (JVal.jobj ((k, v) :: tl)) ++ rest
            = '\x7b' :: ('"' :: (t ++ '\x7d' :: rest)) by simp [jenc, ht]]
          rw [jparseV_succ]
          simp [jparseVBody, hF]
    · -- items
      intro xs rest hne hsz
      cases xs with
      | nil => exact absurd rfl hne
      | cons x xs2 =>
        cases xs2 with
        | nil =>
          have hszx : jsize x ≤ fuel := by simp [jsizeItems] at hsz; omega
          have hV := ihV x (']' :: rest) hszx (headNotDig_cons ']' rest (by decide))
          rw [show jencItems [x] ++ ']' :: rest = jenc x ++ ']' :: rest by
            simp [jencItems]]
          rw [jparseItems_succ]
          simp [jparseItemsBody, hV]
        | cons y r2 =>
          have hszx : jsize x ≤ fuel := by simp [jsizeItems] at hsz; omega
          have hszr : jsizeItems (y :: r2) ≤ fuel := by
            simp [jsizeItems] at hsz ⊢; omega
          have hV := ihV x (',' :: (jencItems (y :: r2) ++ ']' :: rest)) hszx
            (headNotDig_cons ',' _ (by decide))
          have hI := ihI (y :: r2) rest (by simp) hszr
          rw [show jencItems (x :: y :: r2) ++ ']' :: rest
            = jenc x ++ ',' :: (jencItems (y :: r2) ++ ']' :: rest) by
            simp [jencItems]]
          rw [jparseItems_succ]
          simp [jparseItemsBody, hV, hI]
    · -- fields
      intro fs rest hne hsz
      cases fs with
      | nil => exact absurd rfl hne
      | cons f tl =>
        obtain ⟨k, v⟩ := f
        have hszv : jsize v ≤ fuel := by simp [jsizeFields] at hsz; omega
        cases tl with
        | nil =>
          have hV := ihV v ('\x7d' :: rest) hszv
            (headNotDig_cons '\x7d' rest (by decide))
          rw [show jencFields [(k, v)] ++ '\x7d' :: rest
            = '"' :: (escString k ++ '"' :: (':' :: (jenc v ++ '\x7d' :: rest))) by
            simp [jencFields, encStr]]
          rw [jparseFields_succ]
          simp [jparseFieldsBody, parseStrBody_enc, hV]
        | cons g r2 =>
          have hszr : jsizeFields (g :: r2) ≤ fuel := by
            simp [jsizeFields] at hsz ⊢
            have := jsize_pos v
            omega
          have hV := ihV v (',' :: (jencFields (g :: r2) ++ '\x7d' :: rest)) hszv
            (headNotDig_cons ',' _ (by decide))
          have hF := ihF (g :: r2) rest (by simp) hszr
          rw [show jencFields ((k, v) :: g :: r2) ++ '\x7d' :: rest
            = '"' :: (escString k ++ '"' ::
              (':' :: (jenc v ++ ',' :: (jencFields (g :: r2) ++ '\x7d' :: rest)))) by
            simp [jencFields, encStr]]
          rw [jparseFields_succ]
          simp [jparseFieldsBody, parseStrBody_enc, hV, hF]

theorem jsize_le_len (n : Nat) :
    (∀ v, jsize v ≤ n → jsize v ≤ (jenc v).length) ∧
    (∀ xs, xs ≠ [] → jsizeItems xs ≤ n → jsizeItems xs ≤ 1 + (jencItems xs).length) ∧
    (∀ fs, fs ≠ [] → jsizeFields fs ≤ n → jsizeFields fs ≤ 1 + (jencFields fs).length) := by
  induction n with
  | zero =>
    refine ⟨?_, ?_, ?_⟩
    · intro v hsz; have := jsize_pos v; omega
    · intro xs hne hsz
      cases xs with
      | nil => exact absurd rfl hne
      | cons x tl => have := jsizeItems_pos x tl; omega
    · intro fs hne hsz
      cases fs with
      | nil => exact absurd rfl hne
      | cons f tl => simp [jsizeFields] at hsz
  | succ n ih =>
    obtain ⟨ihV, ihI, ihF⟩ := ih
    refine ⟨?_, ?_, ?_⟩
    · intro v hsz
      cases v with
      | jnull => simp [jsize, jenc]
      | jbool b => cases b <;> simp [jsize, jenc]
      | jint m =>
        obtain ⟨c, tl, hct, _⟩ := intChars_head m
        simp [jsize, jenc, hct]
      | jstr s => simp [jsize, jenc, encStr]
      | jarr xs =>
        cases xs with
        | nil => simp [jsize, jsizeItems, jenc, jencItems]
        | cons x tl =>
          have h2 : jsizeItems (x :: tl) ≤ n := by simp [jsize] at hsz; omega
          have := ihI (x :: tl) (by simp) h2
          simp only [jsize, jenc, List.length_cons, List.length_append]
          simp at this ⊢
          omega
      | jobj fs =>
        cases fs with
        | nil => simp [jsize, jsizeFields, jenc, jencFields]
        | cons f tl =>
          have h2 : jsizeFields (f :: tl) ≤ n := by simp [jsize] at hsz; omega
          have := ihF (f :: tl) (by simp) h2
          simp only [jsize, jenc, List.length_cons, List.length_append]
          simp at this ⊢
          omega
    · intro xs hne hsz
      cases xs with
      | nil => exact absurd rfl hne
      | cons x tl =>
        cases tl with
        | nil =>
          have hx : jsize x ≤ n := by simp [jsizeItems] at hsz; omega
          have := ihV x hx
          simp [jsizeItems, jencItems]
          omega
        | cons y r2 =>
          have hx : jsize x ≤ n := by simp [jsizeItems] at hsz; omega
          have hr : jsizeItems (y :: r2) ≤ n := by
            simp [jsizeItems] at hsz ⊢; omega
          have h1 := ihV x hx
          have h2 := ihI (y :: r2) (by simp) hr
          simp only [jsizeItems, jencItems, List.length_append, List.length_cons] at h2 ⊢
          omega
    · intro fs hne hsz
      cases fs with
      | nil => exact absurd rfl hne
      | cons f tl =>
        obtain ⟨k, v⟩ := f
        cases tl with
        | nil =>
          have hv : jsize v ≤ n := by simp [jsizeFields] at hsz; omega
          have := ihV v hv
          simp [jsizeFields, jencFields]
          omega
        | cons g r2 =>
          have hv : jsize v ≤ n := by simp [jsizeFields] at hsz; omega
          have hr : jsizeFields (g :: r2) ≤ n := by
            simp [jsizeFields] at hsz ⊢
            have := jsize_pos v
            omega
          have h1 := ihV v hv
          have h2 := ihF (g :: r2) (by simp) hr
          simp only [jsizeFields, jencFields, List.length_append, List.length_cons] at h2 ⊢
          omega

/-- `json.loads(json.dumps(v)) == v` on the modelled value space. -/
theorem jparse_jenc (v : JVal) : jparse (jenc v) = some v := by
  have h1 : jsize v ≤ (jenc v).length :=
    (jsize_le_len (jsize v)).1 v le_rfl
  have h2 := (jparse_master ((jenc v).length + 1)).1 v [] (by omega) headNotDig_nil
  rw [List.append_nil] at h2
  unfold jparse
  rw [h2]

/-!
### Round-trip of the table layer
-/

theorem dedupFirstAux_absorb (m seen : List (List Char))
    (h : ∀ x ∈ m, x ∈ seen) : dedupFirstAux m seen = [] := by
  induction m with
  | nil => rfl
  | cons k rest ih =>
    have hk : k ∈ seen := h k (by simp)
    simp only [dedupFirstAux, hk, if_true]
    exact ih (fun x hx => h x (by simp [hx]))

theorem dedupFirstAux_prefix (ks : List (List Char)) : ∀ (seen m : List (List Char)),
    ks.Nodup → (∀ x ∈ ks, x ∉ seen) → (∀ x ∈ m, x ∈ ks ∨ x ∈ seen) →
    dedupFirstAux (ks ++ m) seen = ks := by
  induction ks with
  | nil =>
    intro seen m _ _ hm
    exact dedupFirstAux_absorb m seen (fun x hx => by
      rcases hm x hx with h | h
      · cases h
      · exact h)
  | cons k ks2 ih =>
    intro seen m hnd hdisj hm
    have hk : k ∉ seen := hdisj k (by simp)
    simp only [List.cons_append, dedupFirstAux, hk, if_false]
    have hnd2 : ks2.Nodup := (List.nodup_cons.mp hnd).2
    have hknotin : k ∉ ks2 := (List.nodup_cons.mp hnd).1
    congr 1
    exact ih (k :: seen) m hnd2
      (fun x hx => by
        simp only [List.mem_cons]
        push_neg
        exact ⟨fun he => hknotin (he ▸ hx), hdisj x (by simp [hx])⟩)
      (fun x hx => by
        rcases hm x hx with h | h
        · rcases List.mem_cons.mp h with h | h
          · right; simp [h]
          · left; exact h
        · right; simp [h])

theorem dedupFirst_uniform (ks : List (List Char)) (m : List (List Char))
    (hnd : ks.Nodup) (hm : ∀ x ∈ m, x ∈ ks) :
    dedupFirst (ks ++ m) = ks :=
  dedupFirstAux_prefix ks [] m hnd (by simp) (fun x hx => Or.inl (hm x hx))

theorem isIntLit_intChars (n : Int) : isIntLit (intChars n) = true := by
  by_cases hn : n < 0
  · obtain ⟨c, tl, hct⟩ : ∃ c tl, natDigits (-n).toNat = c :: tl := by
      cases hd : natDigits (-n).toNat with
      | nil => exact absurd hd (natDigits_ne_nil _)
      | cons a b => exact ⟨a, b, rfl⟩
    simp only [intChars, hn, if_true, isIntLit, if_pos rfl, hct]
    simp [← hct, natDigits_all_dig]
    exact natDigits_ne_nil _
  · obtain ⟨c, tl, hct, hc⟩ := intChars_head n
    rw [show intChars n = c :: tl by exact hct]
    have hcm : ¬ (c = '-') := by
      rcases hc with hc | hc
      · exfalso
        simp [intChars, hn] at hct
        have := natDigits_all_dig n.toNat
        rw [hct] at this
        simp only [List.all_cons, Bool.and_eq_true] at this
        subst hc
        cases this.1
      · exact isDig_ne c '-' hc (by decide)
    simp only [isIntLit, hcm, if_false]
    have : intChars n = natDigits n.toNat := by simp [intChars, hn]
    rw [← hct, this]
    exact natDigits_all_dig n.toNat

theorem parseIntLit_intChars (n : Int) : parseIntLit (intChars n) = n := by
  by_cases hn : n < 0
  · obtain ⟨c, tl, hct⟩ : ∃ c tl, natDigits (-n).toNat = c :: tl := by
      cases hd : natDigits (-n).toNat with
      | nil => exact absurd hd (natDigits_ne_nil _)
      | cons a b => exact ⟨a, b, rfl⟩
    simp only [intChars, hn, if_true, parseIntLit, if_pos rfl]
    have := digitsToNat_natDigits (-n).toNat
    rw [this]
    omega
  · obtain ⟨c, tl, hct, hc⟩ := intChars_head n
    have heq : intChars n = natDigits n.toNat := by simp [intChars, hn]
    have hcm : ¬ (c = '-') := by
      rcases hc with hc | hc
      · exfalso
        rw [heq] at hct
        have := natDigits_all_dig n.toNat
        rw [hct] at this
        simp only [List.all_cons, Bool.and_eq_true] at this
        subst hc
        cases this.1
      · exact isDig_ne c '-' hc (by decide)
    rw [hct]
    simp only [parseIntLit, hcm, if_false]
    rw [← hct, heq, digitsToNat_natDigits]
    omega

theorem dropWhile_append_singleton (p : Char → Bool) (l : List Char) (c : Char)
    (h : p c = false) : List.dropWhile p (l ++ [c]) = List.dropWhile p l ++ [c] := by
  induction l with
  | nil => simp [List.dropWhile, h]
  | cons a l2 ih =>
    by_cases ha : p a = true
    · simp [List.dropWhile_cons, ha, ih]
    · simp only [Bool.not_eq_true] at ha
      simp [List.dropWhile_cons, ha]

theorem trimChars_fixed (a : Char) (mid : List Char) (b : Char)
    (ha : isWsC a = false) (hb : isWsC b = false) :
    trimChars (a :: (mid ++ [b])) = a :: (mid ++ [b]) := by
  unfold trimChars
  rw [List.dropWhile_cons, ha]
  simp only [Bool.false_eq_true, if_false]
  rw [show (a :: (mid ++ [b])).reverse = b :: (a :: mid).reverse by simp]
  rw [List.dropWhile_cons, hb]
  simp only [Bool.false_eq_true, if_false]
  simp

theorem trimChars_head (c : Char) (tl : List Char) (hc : isWsC c = false) :
    ∃ t2, trimChars (c :: tl) = c :: t2 := by
  unfold trimChars
  rw [List.dropWhile_cons, hc]
  simp only [Bool.false_eq_true, if_false]
  rw [show (c :: tl).reverse = tl.reverse ++ [c] by simp]
  rw [dropWhile_append_singleton isWsC tl.reverse c hc]
  exact ⟨(List.dropWhile isWsC tl.reverse).reverse, by simp⟩

theorem parseCell_jnull_cell : parseCell (JVal.jstr []) = JVal.jnull := by
  simp [parseCell]

theorem badHead_facts (c : Char) (h : badHead c = false) :
    isDig c = false ∧ ¬ (c = '-') ∧ ¬ (c = '+') ∧ ¬ (c = '.') ∧
      isWsC c = false ∧ ¬ (c = '\x7b') ∧ ¬ (c = '[') ∧ ¬ (c = '"') := by
  simp only [badHead, Bool.or_eq_false_iff, decide_eq_false_iff_not] at h
  tauto

theorem parseCell_cellOut (v : JVal) (h : NestedOrSafe v) :
    parseCell (JVal.jstr (cellOut v)) = v := by
  cases v with
  | jnull => simp [cellOut, parseCell]
  | jbool b => cases h
  | jint n => cases h
  | jobj fs =>
    have hshape : cellOut (JVal.jobj fs) = '\x7b' :: (jencFields fs ++ ['\x7d']) := by
      simp [cellOut, jenc]
    have htrim : trimChars ('\x7b' :: (jencFields fs ++ ['\x7d']))
        = '\x7b' :: (jencFields fs ++ ['\x7d']) :=
      trimChars_fixed '\x7b' (jencFields fs) '\x7d' (by decide) (by decide)
    rw [hshape]
    simp only [parseCell, List.isEmpty_cons, htrim]
    simp only [Bool.false_eq_true, if_false]
    rw [show ('\x7b' :: (jencFields fs ++ ['\x7d'])) = jenc (JVal.jobj fs) by
      simp [jenc]]
    simp [jparse_jenc]
  | jarr xs =>
    have hshape : cellOut (JVal.jarr xs) = '[' :: (jencItems xs ++ [']']) := by
      simp [cellOut, jenc]
    have htrim : trimChars ('[' :: (jencItems xs ++ [']']))
        = '[' :: (jencItems xs ++ [']']) :=
      trimChars_fixed '[' (jencItems xs) ']' (by decide) (by decide)
    rw [hshape]
    simp only [parseCell, List.isEmpty_cons, htrim]
    simp only [Bool.false_eq_true, if_false]
    rw [show ('[' :: (jencItems xs ++ [']'])) = jenc (JVal.jarr xs) by
      simp [jenc]]
    simp [jparse_jenc]
  | jstr s =>
    cases s with
    | nil => cases h
    | cons c tl =>
      simp only [NestedOrSafe, isSafeStr, Bool.and_eq_true, Bool.not_eq_true'] at h
      obtain ⟨hbh, _⟩ := h
      obtain ⟨hdig, hm, hp, hdot, hws, hob, hbr, hq⟩ := badHead_facts c hbh
      obtain ⟨t2, ht2⟩ := trimChars_head c tl hws
      simp only [cellOut, parseCell, List.isEmpty_cons, ht2]
      simp only [Bool.false_eq_true, if_false]
      rw [if_neg (by simp [hob, hbr, hq])]

theorem nestedOrSafe_notInt (v : JVal) (h : NestedOrSafe v) :
    isIntLit (cellOut v) = false := by
  cases v with
  | jnull => rfl
  | jbool b => cases h
  | jint n => cases h
  | jobj fs =>
    rw [show cellOut (JVal.jobj fs) = '\x7b' :: (jencFields fs ++ ['\x7d']) by
      simp [cellOut, jenc]]
    simp [isIntLit]
    intro hh _
    exact absurd hh (by decide)
  | jarr xs =>
    rw [show cellOut (JVal.jarr xs) = '[' :: (jencItems xs ++ [']']) by
      simp [cellOut, jenc]]
    simp [isIntLit]
    intro hh _
    exact absurd hh (by decide)
  | jstr s =>
    cases s with
    | nil => cases h
    | cons c tl =>
      simp only [NestedOrSafe, isSafeStr, Bool.and_eq_true, Bool.not_eq_true'] at h
      obtain ⟨hbh, _⟩ := h
      obtain ⟨hdig, hm, _, _, _, _, _, _⟩ := badHead_facts c hbh
      simp [cellOut, isIntLit, hm, hdig]

theorem nestedOrSafe_notBool (v : JVal) (h : NestedOrSafe v) :
    isBoolLit (cellOut v) = false := by
  cases v with
  | jnull => rfl
  | jbool b => cases h
  | jint n => cases h
  | jobj fs =>
    rw [show cellOut (JVal.jobj fs) = '\x7b' :: (jencFields fs ++ ['\x7d']) by
      simp [cellOut, jenc]]
    simp [isBoolLit, boolLits]
  | jarr xs =>
    rw [show cellOut (JVal.jarr xs) = '[' :: (jencItems xs ++ [']']) by
      simp [cellOut, jenc]]
    simp [isBoolLit, boolLits]
  | jstr s =>
    cases s with
    | nil => cases h
    | cons c tl =>
      simp only [NestedOrSafe, isSafeStr, Bool.and_eq_true, Bool.not_eq_true'] at h
      exact h.2

theorem all_false_of_mem {α : Type} (p : α → Bool) (l : List α) (x : α)
    (hx : x ∈ l) (hpx : p x = false) : l.all p = false := by
  cases hall : l.all p with
  | false => rfl
  | true =>
    rw [List.all_eq_true] at hall
    rw [hall x hx] at hpx
    cases hpx

theorem column_roundtrip (vs : List JVal) (hne : vs ≠ []) (h : ColumnOK vs) :
    (inferColumn (vs.map cellOut)).map parseCell = vs := by
  obtain ⟨v0, hv0⟩ : ∃ v, v ∈ vs := by
    cases vs with
    | nil => exact absurd rfl hne
    | cons a b => exact ⟨a, by simp⟩
  rcases h with h | h | h
  · have hall : (vs.map cellOut).all isIntLit = true := by
      rw [List.all_eq_true]
      intro x hx
      obtain ⟨v, hv, rfl⟩ := List.mem_map.mp hx
      obtain ⟨n, rfl⟩ := h v hv
      simpa [cellOut] using isIntLit_intChars n
    simp only [inferColumn, hall, if_true, List.map_map, List.map_map]
    conv_rhs => rw [← List.map_id vs]
    apply List.map_congr_left
    intro v hv
    obtain ⟨n, rfl⟩ := h v hv
    simp [Function.comp, cellOut, parseIntLit_intChars, parseCell]
  · obtain ⟨b0, hb0⟩ := h v0 hv0
    have hnotint : (vs.map cellOut).all isIntLit = false := by
      apply all_false_of_mem _ _ (cellOut v0) (List.mem_map_of_mem _ hv0)
      subst hb0; cases b0 <;> decide
    have hallb : (vs.map cellOut).all isBoolLit = true := by
      rw [List.all_eq_true]
      intro x hx
      obtain ⟨v, hv, rfl⟩ := List.mem_map.mp hx
      obtain ⟨b, rfl⟩ := h v hv
      cases b <;> decide
    simp only [inferColumn, hnotint, Bool.false_eq_true, if_false, hallb,
      if_true, List.map_map, List.map_map]
    conv_rhs => rw [← List.map_id vs]
    apply List.map_congr_left
    intro v hv
    obtain ⟨b, rfl⟩ := h v hv
    cases b <;> simp [Function.comp, cellOut, parseCell] <;> decide
  · have hnotint : (vs.map cellOut).all isIntLit = false :=
      all_false_of_mem _ _ (cellOut v0) (List.mem_map_of_mem _ hv0)
        (nestedOrSafe_notInt v0 (h v0 hv0))
    have hnotbool : (vs.map cellOut).all isBoolLit = false :=
      all_false_of_mem _ _ (cellOut v0) (List.mem_map_of_mem _ hv0)
        (nestedOrSafe_notBool v0 (h v0 hv0))
    simp only [inferColumn, hnotint, Bool.false_eq_true, if_false, hnotbool,
      List.map_map, List.map_map]
    conv_rhs => rw [← List.map_id vs]
    apply List.map_congr_left
    intro v hv
    exact parseCell_cellOut v (h v hv)

theorem zipCols_map (ks : List (List Char)) (f : List Char → Row → JVal) :
    ∀ rows : List Row,
      zipCols rows.length (ks.map (fun k => (k, rows.map (f k))))
        = rows.map (fun r => ks.map (fun k => (k, f k r))) := by
  intro rows
  induction rows with
  | nil => simp [zipCols]
  | cons r rest ih =>
    simp only [List.length_cons, zipCols, List.map_map, List.map_cons]
    refine List.cons_eq_cons.mpr ⟨?_, ?_⟩
    · apply List.map_congr_left
      intro k _
      simp
    · rw [show (List.map
          ((fun p => (p.1, p.2.tail)) ∘ fun k => (k, f k r :: List.map (f k) rest)) ks)
        = ks.map (fun k => (k, rest.map (f k))) by
        apply List.map_congr_left
        intro k _
        simp]
      exact ih

theorem row_reconstruct (r : Row) (hnd : (r.map Prod.fst).Nodup) :
    (r.map Prod.fst).map (fun k => (k, rowVal k r)) = r := by
  induction r with
  | nil => rfl
  | cons p rest ih =>
    obtain ⟨k0, v0⟩ := p
    simp only [List.map_cons] at hnd ⊢
    have hk0 : k0 ∉ rest.map Prod.fst := (List.nodup_cons.mp hnd).1
    have hnd2 : (rest.map Prod.fst).Nodup := (List.nodup_cons.mp hnd).2
    refine List.cons_eq_cons.mpr ⟨?_, ?_⟩
    · simp [rowVal, aget]
    · rw [show (rest.map Prod.fst).map (fun k => (k, rowVal k ((k0, v0) :: rest)))
        = (rest.map Prod.fst).map (fun k => (k, rowVal k rest)) by
        apply List.map_congr_left
        intro k hk
        have : ¬ (k0 = k) := fun he => hk0 (he ▸ hk)
        simp [rowVal, aget, this]]
      exact ih hnd2

theorem mem_flat_keys (ks : List (List Char)) :
    ∀ (rows : List Row), (∀ r ∈ rows, r.map Prod.fst = ks) →
    ∀ x ∈ rows.foldr (fun r acc => r.map Prod.fst ++ acc) [], x ∈ ks := by
  intro rows
  induction rows with
  | nil => intro _ x hx; cases hx
  | cons r rest ih =>
    intro hr x hx
    simp only [List.foldr_cons, List.mem_append] at hx
    rcases hx with hx | hx
    · rw [hr r (by simp)] at hx
      exact hx
    · exact ih (fun q hq => hr q (by simp [hq])) x hx

/-- Structural round-trip of `write_table`'s artifact through `read_table`'s
parsing, for tables with uniform duplicate-free keys and round-trippable
columns. -/
theorem readTable_mkCsv (rows : List Row) (ks : List (List Char))
    (hne : rows ≠ []) (hks : ∀ r ∈ rows, r.map Prod.fst = ks) (hnd : ks.Nodup)
    (hcols : ∀ k ∈ ks, ColumnOK (rows.map (rowVal k))) :
    readTableRows (mkCsv rows) = rows := by
  obtain ⟨r0, rest, rfl⟩ : ∃ r0 rest, rows = r0 :: rest := by
    cases rows with
    | nil => exact absurd rfl hne
    | cons a b => exact ⟨a, b, rfl⟩
  have hkeys : dedupFirst
      ((r0 :: rest).foldr (fun r acc => r.map Prod.fst ++ acc) []) = ks := by
    simp only [List.foldr_cons]
    rw [hks r0 (by simp)]
    exact dedupFirst_uniform ks _ hnd
      (mem_flat_keys ks rest (fun q hq => hks q (by simp [hq])))
  unfold readTableRows mkCsv
  simp only [hkeys, List.map_map]
  rw [show (List.map
      ((fun p => (p.1, (inferColumn p.2).map parseCell)) ∘
        fun k => (k, List.map (fun r => cellOut (rowVal k r)) (r0 :: rest))) ks)
    = ks.map (fun k => (k, (r0 :: rest).map (rowVal k))) by
    apply List.map_congr_left
    intro k hk
    simp only [Function.comp]
    congr 1
    rw [show List.map (fun r => cellOut (rowVal k r)) (r0 :: rest)
      = ((r0 :: rest).map (rowVal k)).map cellOut by rw [List.map_map]; rfl]
    exact column_roundtrip _ (by simp) (hcols k hk)]
  rw [zipCols_map ks rowVal (r0 :: rest)]
  conv_rhs => rw [← List.map_id (r0 :: rest)]
  apply List.map_congr_left
  intro r hr
  rw [← hks r hr]
  exact row_reconstruct r (by rw [hks r hr]; exact hnd)

/-!
## Claims
-/

/-- C6: for every cache key, `StaticCache.get` returns the stored index
entry if and only if the key is present in the index, the entry is within
TTL (`now < cached_at + ttl_days`), and the file referenced by the entry
exists on disk; in every other case (key missing, entry expired, backing
file missing) it returns absent — and, the model function being total, it
never raises: the caller sees a cache miss, not an error. -/
theorem claim_C6 (st : StaticCacheState) (now : Int) (key : String)
    (e : CacheEntry) :
    scGet st now key = some e ↔
      (aget key st.entries = some e ∧
        now < e.cached_at + e.ttl_days * 86400 ∧
        (aget e.path st.files).isSome = true) := by
  unfold scGet
  cases hg : aget key st.entries with
  | none => simp
  | some e2 =>
    simp only []
    by_cases hv : isEntryValid now e2
    · simp only [hv, Bool.not_true, Bool.false_eq_true, if_false]
      by_cases hf : (aget e2.path st.files).isSome
      · simp only [hf, if_true, Option.some.injEq]
        constructor
        · rintro rfl
          refine ⟨rfl, ?_, hf⟩
          simpa [isEntryValid] using hv
        · rintro ⟨he, _, _⟩
          exact he
      · simp only [hf, if_false]
        constructor
        · intro h; cases h
        · rintro ⟨he, _, hfe⟩
          obtain rfl : e2 = e := (Option.some.injEq _ _).mp he
          exact absurd hfe hf
    · simp only [hv]
      constructor
      · intro h
        simp at h
      · rintro ⟨he, httl, _⟩
        obtain rfl : e2 = e := (Option.some.injEq _ _).mp he
        exact absurd (by simpa [isEntryValid] using httl) hv

/-- Witness for C6 at a concrete state: a present, fresh entry whose file
exists is returned. -/
theorem claim_C6_witness :
    scGet
      ⟨[("k", { cached_at := 0, ttl_days := 1, path := "p" })],
        [("p", { nrows := 0, cols := [] })], []⟩
      5 ("k")
      = some { cached_at := 0, ttl_days := 1, path := "p" } :=
  (claim_C6 _ 5 ("k") _).mpr ⟨rfl, by decide, rfl⟩

/-- C10: `write_table` with an empty rows list is a complete no-op — no CSV
file is written, the index and the directory metadata are unchanged (the
key is not registered, an existing entry is not refreshed), and a
subsequent `read_table` of that key behaves exactly as before the call. -/
theorem claim_C10 (st : StaticCacheState) (now : Int) (key : String)
    (ttl : Int) (path : String) :
    scWriteTable st now key [] ttl path = st ∧
      (∀ now2 key2,
        scReadTable (scWriteTable st now key [] ttl path) now2 key2
          = scReadTable st now2 key2) := by
  have h : scWriteTable st now key [] ttl path = st := by
    simp [scWriteTable]
  exact ⟨h, fun now2 key2 => by rw [h]⟩

/-- C7 (amended): for every nonempty table of rows in which all rows share
one duplicate-free key sequence and every column is round-trippable — all
integers, all booleans, or each value a dict, list, `None`, or a safe
string (nonempty, not whitespace/sign/digit/dot-headed, not a boolean
literal, and not beginning with a brace, bracket or quote) — writing with
`write_table` under a key with an unexpired TTL and then reading that key
with `read_table` yields a list of rows structurally equal to the one
written. -/
theorem claim_C7_amended (st : StaticCacheState) (now now2 : Int)
    (key path : String) (rows : List Row) (ks : List (List Char)) (ttl : Int)
    (hne : rows ≠ [])
    (hks : ∀ r ∈ rows, r.map Prod.fst = ks)
    (hnd : ks.Nodup)
    (hcols : ∀ k ∈ ks, ColumnOK (rows.map (rowVal k)))
    (httl : now2 < now + ttl * 86400) :
    scReadTable (scWriteTable st now key rows ttl path) now2 key = some rows := by
  have hnem : rows.isEmpty = false := by
    cases rows with
    | nil => exact absurd rfl hne
    | cons a b => rfl
  unfold scWriteTable
  rw [hnem]
  simp only [Bool.false_eq_true, if_false]
  unfold scReadTable scGet
  simp only [aget_aput_self]
  have hval : isEntryValid now2
      { cached_at := now, ttl_days := ttl, path := path,
        record_count := some rows.length } = true := by
    simp only [isEntryValid, decide_eq_true_eq]
    exact httl
  rw [hval]
  simp only [Bool.not_true, Bool.false_eq_true, if_false, aget_aput_self,
    Option.isSome_some, if_true]
  rw [readTable_mkCsv rows ks hne hks hnd hcols]

/-- Witness for C7 (amended) at a concrete table with a nested dict
value. -/
theorem claim_C7_amended_witness :
    scReadTable (scWriteTable ⟨[], [], []⟩ 0 ("k") c7rows 1 ("p")) 0 ("k")
      = some c7rows := by
  refine claim_C7_amended ⟨[], [], []⟩ 0 0 ("k") ("p") c7rows
    [['a'], ['b'], ['c']] 1 (by simp [c7rows]) ?_ (by decide) ?_ (by decide)
  · intro r hr
    simp only [c7rows, List.mem_singleton] at hr
    subst hr
    rfl
  · intro k hk
    refine Or.inr (Or.inr ?_)
    intro v hv
    simp only [List.mem_cons, List.mem_singleton, List.not_mem_nil, or_false] at hk
    rcases hk with hk | hk | hk
    · subst hk
      simp only [c7rows, List.map_cons, List.map_nil, List.mem_singleton] at hv
      rw [show rowVal ['a'] [(['a'], JVal.jobj [(['x'], JVal.jint 1)]),
        (['b'], JVal.jstr ['h', 'i']), (['c'], JVal.jnull)]
          = JVal.jobj [(['x'], JVal.jint 1)] from rfl] at hv
      subst hv
      trivial
    · subst hk
      simp only [c7rows, List.map_cons, List.map_nil, List.mem_singleton] at hv
      rw [show rowVal ['b'] [(['a'], JVal.jobj [(['x'], JVal.jint 1)]),
        (['b'], JVal.jstr ['h', 'i']), (['c'], JVal.jnull)]
          = JVal.jstr ['h', 'i'] from rfl] at hv
      subst hv
      show isSafeStr ['h', 'i'] = true
      decide
    · subst hk
      simp only [c7rows, List.map_cons, List.map_nil, List.mem_singleton] at hv
      rw [show rowVal ['c'] [(['a'], JVal.jobj [(['x'], JVal.jint 1)]),
        (['b'], JVal.jstr ['h', 'i']), (['c'], JVal.jnull)]
          = JVal.jnull from rfl] at hv
      subst hv
      trivial

/-- C7 (counterexample): the claim fails as stated — writing the table
`[{"a": "7"}]` (value the *string* "7") under an unexpired TTL and reading
it back yields `[{"a": 7}]` (the *integer* 7), which is not structurally
equal to what was written. -/
theorem claim_C7_counterexample :
    scReadTable (scWriteTable ⟨[], [], []⟩ 0 ("k") c7badRows 7 ("p")) 0 ("k")
      = some [[(['a'], JVal.jint 7)]] ∧
    some [[(['a'], JVal.jint 7)]]
      ≠ some c7badRows := by
  constructor
  · rfl
  · intro h
    simp [c7badRows] at h

theorem listMax_isSome (l : List Int) (h : l ≠ []) : ∃ m, listMax l = some m := by
  cases l with
  | nil => exact absurd rfl h
  | cons x rest =>
    simp only [listMax]
    cases listMax rest with
    | none => exact ⟨x, rfl⟩
    | some v => exact ⟨max x v, rfl⟩

/-- C3 (counterexample): the claim fails as stated — in the code each
series is trimmed by a cutoff anchored on its **own** latest observed date,
not the candidate's.  With the spec's own candidate (2019-01-01..2024-08-15,
years = 4, claimed single cutoff 2021-01-01), a baseline ending 2016-06-01
keeps its pre-2021 rows, while the claim says they are dropped. -/
theorem claim_C3_counterexample :
    specCandCutoff c3cand 4 = mkDate 2021 1 1 ∧
    trimReturns c3base 4 ≠ frameFilterGE c3base (specCandCutoff c3cand 4) := by
  constructor
  · decide
  · decide

/-- C3 (amended): each of the candidate and the baseline series is trimmed
to the window defined by a cutoff anchored on that series' **own** latest
observed date — `anchorYear = lastYear+1` if the last observed month is
≥ 7 else `lastYear`, cutoff January 1 of `anchorYear − years`, keeping
exactly the rows with `date ≥ cutoff`; in particular a candidate spanning
2019-01-01..2024-08-15 with `years = 4` is cut at 2021-01-01. -/
theorem claim_C3_amended (f : Frame) (years : Int) (h : frameEmpty f = false) :
    (∃ last, listMax (frameDates f) = some last ∧
      trimReturns f years
        = frameFilterGE f
            (mkDate ((if 7 ≤ dmonth last then dyear last + 1 else dyear last) - years)
              1 1)) ∧
    specCandCutoff c3cand 4 = mkDate 2021 1 1 ∧
    trimReturns c3cand 4 = frameFilterGE c3cand (mkDate 2021 1 1) := by
  refine ⟨?_, by decide, by decide⟩
  have hdne : frameDates f ≠ [] := by
    intro hd
    simp [frameEmpty, hd] at h
  obtain ⟨last, hlast⟩ := listMax_isSome (frameDates f) hdne
  refine ⟨last, hlast, ?_⟩
  unfold trimReturns
  rw [h]
  simp only [Bool.false_eq_true, if_false, hlast, anchorYearOf]

/-- Witness for C3 (amended) at the spec's own candidate frame. -/
theorem claim_C3_amended_witness :
    frameEmpty c3cand = false ∧
    ((∃ last, listMax (frameDates c3cand) = some last ∧
      trimReturns c3cand 4
        = frameFilterGE c3cand
            (mkDate ((if 7 ≤ dmonth last then dyear last + 1 else dyear last) - 4)
              1 1)) ∧
    specCandCutoff c3cand 4 = mkDate 2021 1 1 ∧
    trimReturns c3cand 4 = frameFilterGE c3cand (mkDate 2021 1 1)) :=
  ⟨by decide, claim_C3_amended c3cand 4 (by decide)⟩

/-- C9: a PROD request is rejected with a `ValueError` before any
computation or cache/baseline state change — `fetch_correlation` raises
before touching the guards and arithmetic, and `check_local_correlation`
raises before the baseline sync and before any fetch (its effect trace is
empty). -/
theorem claim_C9 :
    (∀ alphas cachedReturns kernel alphaId candidateReturns region years,
      fetchCorrelation alphas cachedReturns kernel alphaId candidateReturns
          region CorrType.PROD years
        = Except.error "PROD correlation is not supported locally.") ∧
    (∀ env alphaId checkTypes0 threshold years,
      CorrType.PROD ∈ checkTypes0.getD [CorrType.SELF] →
      checkLocalCorrelation env alphaId checkTypes0 threshold years
        = (Except.error "PROD correlation is not supported locally.", [])) := by
  constructor
  · intro alphas cachedReturns kernel alphaId candidateReturns region years
    rfl
  · intro env alphaId checkTypes0 threshold years hmem
    unfold checkLocalCorrelation
    rw [if_pos hmem]

/-- Witness for C9: a PROD-containing request at a concrete environment. -/
theorem claim_C9_witness :
    checkLocalCorrelation envW ("a") (some [CorrType.PROD]) 1 4
      = (Except.error "PROD correlation is not supported locally.", []) :=
  claim_C9.2 envW ("a") (some [CorrType.PROD]) 1 4 (by decide)

/-- C2: for every SELF or POWER_POOL request, if the cached baseline return
table is empty, or the candidate series is empty, or the region is unset,
or the resolved baseline id set for (tag, region) is empty, or the trimmed
candidate and trimmed baseline share fewer than 30 common dates, then
`fetch_correlation` returns the empty result (`max = None`, `min = None`,
`records = []`) and does not raise. -/
theorem claim_C2 (alphas : List (String × AlphaIndexEntry))
    (cachedReturns : Frame) (kernel : CorrKernel) (alphaId : String)
    (candidateReturns : Frame) (region : String) (corrType : CorrType)
    (years : Int)
    (ht : corrType = CorrType.SELF ∨ corrType = CorrType.POWER_POOL)
    (hcond :
      frameEmpty cachedReturns = true ∨ frameEmpty candidateReturns = true ∨
      region = "" ∨
      resolvedBaselineIds alphas cachedReturns corrType region = [] ∨
      (commonDatesOf (trimReturns candidateReturns years)
        (trimReturns
          (selectCols cachedReturns
            (resolvedBaselineIds alphas cachedReturns corrType region))
          years)).length < 30) :
    fetchCorrelation alphas cachedReturns kernel alphaId candidateReturns
        region corrType years = Except.ok emptyCorrData := by
  have hnp : ¬ (corrType = CorrType.PROD) := by
    rcases ht with h | h <;> subst h <;> intro he <;> cases he
  unfold fetchCorrelation
  rw [if_neg hnp]
  by_cases h1 : (frameEmpty cachedReturns || frameEmpty candidateReturns ||
      decide (region = "")) = true
  · simp only [h1, if_true]
  · simp only [h1, Bool.false_eq_true, if_false]
    by_cases h2 : (resolvedBaselineIds alphas cachedReturns corrType region).isEmpty = true
    · simp only [h2, if_true]
    · simp only [h2, Bool.false_eq_true, if_false]
      by_cases h3 : (commonDatesOf (trimReturns candidateReturns years)
          (trimReturns
            (selectCols cachedReturns
              (resolvedBaselineIds alphas cachedReturns corrType region))
            years)).length < 30
      · simp only [h3, if_true]
      · exfalso
        simp only [Bool.or_eq_true, decide_eq_true_eq, not_or] at h1
        obtain ⟨⟨hc1, hc2⟩, hc3⟩ := h1
        have hc4 : ¬ (resolvedBaselineIds alphas cachedReturns corrType region = []) := by
          intro he
          rw [he] at h2
          exact h2 rfl
        rcases hcond with h | h | h | h | h
        · exact hc1 (by simp [h])
        · exact hc2 (by simp [h])
        · exact hc3 h
        · exact hc4 h
        · exact h3 h

/-- Witness for C2: a concrete SELF request against an empty cache returns
the empty result. -/
theorem claim_C2_witness :
    fetchCorrelation [] [] (fun _ => none) ("a") [("a", [(mkDate 2024 1 2, 1)])]
        ("USA") CorrType.SELF 4 = Except.ok emptyCorrData :=
  claim_C2 [] [] (fun _ => none) ("a") [("a", [(mkDate 2024 1 2, 1)])]
    ("USA") CorrType.SELF 4 (Or.inl rfl) (Or.inl (by decide))

theorem buildChecksLoop_spec (alphas : List (String × AlphaIndexEntry))
    (cachedReturns : Frame) (kernel : CorrKernel) (alphaId : String)
    (candidateReturns : Frame) (region : String) (threshold : ℚ) (years : Int) :
    ∀ (ts : List CorrType) (acc : List (CorrType × CorrelationCheckResult))
      (ap : Bool) (checks : List (CorrType × CorrelationCheckResult)) (ap2 : Bool),
    buildChecksLoop alphas cachedReturns kernel alphaId candidateReturns region
        threshold years ts acc ap = Except.ok (checks, ap2) →
    (∀ t ∈ ts, ∃ cd, fetchCorrelation alphas cachedReturns kernel alphaId
        candidateReturns region t years = Except.ok cd) ∧
    ap2 = (ap && ts.all (fun t =>
      match fetchCorrelation alphas cachedReturns kernel alphaId
          candidateReturns region t years with
      | Except.ok cd => (toCheckResult cd threshold).passes_check
      | Except.error _ => true)) ∧
    (∀ t, aget t checks =
      if t ∈ ts then
        (match fetchCorrelation alphas cachedReturns kernel alphaId
            candidateReturns region t years with
         | Except.ok cd => some (toCheckResult cd threshold)
         | Except.error _ => aget t acc)
      else aget t acc) := by
  intro ts
  induction ts with
  | nil =>
    intro acc ap checks ap2 h
    simp only [buildChecksLoop, Except.ok.injEq, Prod.mk.injEq] at h
    obtain ⟨rfl, rfl⟩ := h
    refine ⟨by simp, by simp, ?_⟩
    intro t
    simp
  | cons t0 rest ih =>
    intro acc ap checks ap2 h
    simp only [buildChecksLoop] at h
    cases hf : fetchCorrelation alphas cachedReturns kernel alphaId
        candidateReturns region t0 years with
    | error e => rw [hf] at h; cases h
    | ok cd0 =>
      rw [hf] at h
      simp only [] at h
      obtain ⟨ih1, ih2, ih3⟩ := ih _ _ _ _ h
      refine ⟨?_, ?_, ?_⟩
      · intro t htm
        rcases List.mem_cons.mp htm with rfl | htm
        · exact ⟨cd0, hf⟩
        · exact ih1 t htm
      · rw [ih2, List.all_cons, hf]
        simp [Bool.and_assoc]
      · intro t
        by_cases htr : t ∈ rest
        · obtain ⟨cd, hcd⟩ := ih1 t htr
          have := ih3 t
          rw [if_pos htr, hcd] at this
          rw [this, if_pos (List.mem_cons_of_mem _ htr), hcd]
        · by_cases ht0 : t = t0
          · subst ht0
            have := ih3 t
            rw [if_neg htr] at this
            rw [this, if_pos (by simp), hf, aget_aput_self]
          · have := ih3 t
            rw [if_neg htr] at this
            rw [this, if_neg (by simp [ht0, htr]), aget_aput_ne _ _ _ _ ht0]

/-- C1: the checker's classification satisfies
`passes_check = (max is None) OR (max < threshold)` with strict less-than
(a result whose max equals the threshold fails; `max = None` always
passes); and for every list of requested check types the response's
`all_passed` equals the conjunction of `passes_check` over all requested
types, each requested type carrying its own check result. -/
theorem claim_C1 :
    (∀ (cd : CorrelationData) (threshold : ℚ),
      ((toCheckResult cd threshold).passes_check = true ↔
        (cd.max = none ∨ ∃ m, cd.max = some m ∧ m < threshold))) ∧
    (∀ (alphas : List (String × AlphaIndexEntry)) (cachedReturns : Frame)
      (kernel : CorrKernel) (alphaId : String) (candidateReturns : Frame)
      (region : String) (checkTypes : List CorrType) (threshold : ℚ)
      (years : Int) (resp : CorrelationCheckResponse),
      buildCheckResponse alphas cachedReturns kernel alphaId candidateReturns
          region checkTypes threshold years = Except.ok resp →
      (∀ t ∈ checkTypes, ∃ cd,
        fetchCorrelation alphas cachedReturns kernel alphaId candidateReturns
            region t years = Except.ok cd ∧
        aget t resp.checks = some (toCheckResult cd threshold)) ∧
      resp.all_passed = checkTypes.all (fun t =>
        match fetchCorrelation alphas cachedReturns kernel alphaId
            candidateReturns region t years with
        | Except.ok cd => (toCheckResult cd threshold).passes_check
        | Except.error _ => true)) := by
  constructor
  · intro cd threshold
    cases hm : cd.max with
    | none => simp [toCheckResult, hm]
    | some m =>
      simp only [toCheckResult, hm, decide_eq_true_eq]
      constructor
      · intro h
        exact Or.inr ⟨m, rfl, h⟩
      · rintro (h | ⟨m2, hm2, hlt⟩)
        · cases h
        · obtain rfl : m = m2 := (Option.some.injEq _ _).mp hm2
          exact hlt
  · intro alphas cachedReturns kernel alphaId candidateReturns region
      checkTypes threshold years resp h
    unfold buildCheckResponse at h
    cases hl : buildChecksLoop alphas cachedReturns kernel alphaId
        candidateReturns region threshold years checkTypes [] true with
    | error e => rw [hl] at h; cases h
    | ok pr =>
      obtain ⟨checks, ap2⟩ := pr
      rw [hl] at h
      simp only [Except.ok.injEq] at h
      subst h
      obtain ⟨h1, h2, h3⟩ := buildChecksLoop_spec alphas cachedReturns kernel
        alphaId candidateReturns region threshold years checkTypes [] true
        checks ap2 hl
      refine ⟨?_, ?_⟩
      · intro t htm
        obtain ⟨cd, hcd⟩ := h1 t htm
        refine ⟨cd, hcd, ?_⟩
        have := h3 t
        rw [if_pos htm, hcd] at this
        exact this
      · simpa using h2

/-- Witness for C1 at concrete inputs: the empty-max result passes, and a
one-type response's `all_passed` is the conjunction over the requested
types. -/
theorem claim_C1_witness :
    (toCheckResult emptyCorrData 1).passes_check = true ∧
    c1respW.all_passed = [CorrType.SELF].all (fun t =>
      match fetchCorrelation [] [] (fun _ => none) ("a") [] ("") t 4 with
      | Except.ok cd => (toCheckResult cd 1).passes_check
      | Except.error _ => true) :=
  ⟨(claim_C1.1 emptyCorrData 1).mpr (Or.inl rfl),
    (claim_C1.2 [] [] (fun _ => none) ("a") [] ("") [CorrType.SELF] 1 4
      c1respW rfl).2⟩

theorem aget_foldl_adel {α : Type} (ids : List String) :
    ∀ (l : List (String × α)) (i : String),
      aget i (ids.foldl (fun acc j => adel j acc) l)
        = if i ∈ ids then none else aget i l := by
  induction ids with
  | nil => intro l i; simp
  | cons j rest ih =>
    intro l i
    simp only [List.foldl_cons]
    rw [ih (adel j l) i]
    by_cases hir : i ∈ rest
    · simp [hir]
    · by_cases hij : i = j
      · subst hij
        simp [hir, aget_adel_self]
      · simp [hir, hij, aget_adel_ne _ _ _ hij]

theorem syncLoop_spec (env : SyncEnv) :
    ∀ (l : List (String × AlphaIndexEntry)) (st0 : CacheState) (c0 : Nat),
      (∀ a ∈ l, (env.fetchSeries a.1).isSome = true) →
      (∀ i, i ∉ l.map Prod.fst →
        aget i (l.foldl (syncStep env) (st0, c0)).1.indexAlphas
            = aget i st0.indexAlphas ∧
        aget i (l.foldl (syncStep env) (st0, c0)).1.disk = aget i st0.disk) ∧
      (∀ i ∈ l.map Prod.fst,
        (aget i (l.foldl (syncStep env) (st0, c0)).1.indexAlphas).isSome = true) ∧
      (l.foldl (syncStep env) (st0, c0)).2 = c0 + l.length := by
  intro l
  induction l with
  | nil => intro st0 c0 _; exact ⟨fun i _ => ⟨rfl, rfl⟩, by simp, by simp⟩
  | cons a rest ih =>
    intro st0 c0 hok
    obtain ⟨s, hs⟩ := Option.isSome_iff_exists.mp (hok a (by simp))
    have hstep : syncStep env (st0, c0) a
        = (⟨aput a.1 a.2 st0.indexAlphas, aput a.1 s st0.disk⟩, c0 + 1) := by
      simp [syncStep, hs]
    obtain ⟨ih1, ih2, ih3⟩ := ih
      ⟨aput a.1 a.2 st0.indexAlphas, aput a.1 s st0.disk⟩ (c0 + 1)
      (fun q hq => hok q (by simp [hq]))
    refine ⟨?_, ?_, ?_⟩
    · intro i hi
      simp only [List.map_cons, List.mem_cons, not_or] at hi
      obtain ⟨hia, hirest⟩ := hi
      simp only [List.foldl_cons, hstep]
      obtain ⟨e1, e2⟩ := ih1 i hirest
      rw [e1, e2, aget_aput_ne _ _ _ _ hia, aget_aput_ne _ _ _ _ hia]
      exact ⟨rfl, rfl⟩
    · intro i hi
      simp only [List.foldl_cons, hstep]
      rcases List.mem_cons.mp hi with heq | hirest
      · by_cases hir2 : i ∈ rest.map Prod.fst
        · exact ih2 i hir2
        · rw [(ih1 i hir2).1, heq, aget_aput_self]
          rfl
      · exact ih2 i hirest
    · simp only [List.foldl_cons, hstep, ih3, List.length_cons]
      omega

/-- C5: with a successful roster fetch and all per-entity fetches
successful, after `_sync_baseline` the index key set equals exactly the
remote roster; every cached id no longer on the roster is removed from the
index and its on-disk series deleted; every id in both rosters keeps its
stored series untouched; and the roster index is persisted exactly once if
and only if at least one addition or removal occurred. -/
theorem claim_C5 (loaded : Option (List (String × AlphaIndexEntry)))
    (disk0 : List (String × Series)) (env : SyncEnv)
    (hfetch : ∀ a ∈ env.roster, (env.fetchSeries a.1).isSome = true) :
    (∀ i, (aget i (syncBaseline loaded disk0 env).st.indexAlphas).isSome = true ↔
      i ∈ env.roster.map Prod.fst) ∧
    (∀ i ∈ (loaded.getD []).map Prod.fst, i ∉ env.roster.map Prod.fst →
      aget i (syncBaseline loaded disk0 env).st.indexAlphas = none ∧
      aget i (syncBaseline loaded disk0 env).st.disk
        = (none : Option Series)) ∧
    (∀ i ∈ (loaded.getD []).map Prod.fst, i ∈ env.roster.map Prod.fst →
      aget i (syncBaseline loaded disk0 env).st.disk = aget i disk0) ∧
    ((syncBaseline loaded disk0 env).indexSaves
      = if (∃ i ∈ env.roster.map Prod.fst, i ∉ (loaded.getD []).map Prod.fst) ∨
          (∃ i ∈ (loaded.getD []).map Prod.fst, i ∉ env.roster.map Prod.fst)
        then 1 else 0) := by
  unfold syncBaseline
  simp only []
  set index0 := loaded.getD [] with hindex0
  set cachedIds := index0.map Prod.fst with hcached
  set currentIds := env.roster.map Prod.fst with hcurrent
  set staleIds := cachedIds.filter (fun i => decide (i ∉ currentIds)) with hstale
  set newAlphas := env.roster.filter (fun a => decide (a.1 ∉ cachedIds)) with hnew
  have hmem_stale : ∀ i, i ∈ staleIds ↔ (i ∈ cachedIds ∧ i ∉ currentIds) := by
    intro i
    rw [hstale, List.mem_filter]
    simp
  have hmem_newkeys : ∀ i, i ∈ newAlphas.map Prod.fst ↔
      (i ∈ currentIds ∧ i ∉ cachedIds) := by
    intro i
    rw [hnew, hcurrent]
    constructor
    · intro h
      obtain ⟨a, ha, rfl⟩ := List.mem_map.mp h
      have := List.mem_filter.mp ha
      exact ⟨List.mem_map_of_mem _ this.1, by simpa using this.2⟩
    · rintro ⟨h1, h2⟩
      obtain ⟨a, ha, rfl⟩ := List.mem_map.mp h1
      exact List.mem_map_of_mem _ (List.mem_filter.mpr ⟨ha, by simpa using h2⟩)
  have hidx1 : ∀ i, aget i (staleIds.foldl (fun ix j => adel j ix) index0)
      = if i ∈ staleIds then none else aget i index0 := fun i =>
    aget_foldl_adel staleIds index0 i
  have hdisk1 : ∀ i, aget i (staleIds.foldl (fun dk j => adel j dk) disk0)
      = if i ∈ staleIds then none else aget i disk0 := fun i =>
    aget_foldl_adel staleIds disk0 i
  have hoknew : ∀ a ∈ newAlphas, (env.fetchSeries a.1).isSome = true := by
    intro a ha
    exact hfetch a (List.mem_filter.mp ha).1
  by_cases hempty : (newAlphas.isEmpty && staleIds.isEmpty) = true
  · simp only [hempty, if_true]
    simp only [Bool.and_eq_true, List.isEmpty_iff] at hempty
    obtain ⟨hne, hse⟩ := hempty
    have hsub1 : ∀ i, i ∈ currentIds → i ∈ cachedIds := by
      intro i hi
      by_contra hnc
      have hmm : i ∈ newAlphas.map Prod.fst := (hmem_newkeys i).mpr ⟨hi, hnc⟩
      rw [hne] at hmm
      cases hmm
    have hsub2 : ∀ i, i ∈ cachedIds → i ∈ currentIds := by
      intro i hi
      by_contra hnc
      have hmm : i ∈ staleIds := (hmem_stale i).mpr ⟨hi, hnc⟩
      rw [hse] at hmm
      cases hmm
    refine ⟨?_, ?_, ?_, ?_⟩
    · intro i
      show (aget i (staleIds.foldl (fun ix j => adel j ix) index0)).isSome = true ↔ _
      rw [hidx1 i, hse]
      simp only [List.not_mem_nil, if_false]
      rw [aget_isSome]
      exact ⟨fun h => hsub2 i h, fun h => hsub1 i h⟩
    · intro i hic hinc
      exact absurd (hsub2 i hic) hinc
    · intro i _ _
      show aget i (staleIds.foldl (fun dk j => adel j dk) disk0) = aget i disk0
      rw [hdisk1 i, hse]
      simp
    · have hnochange : ¬ ((∃ i ∈ currentIds, i ∉ cachedIds) ∨
          (∃ i ∈ cachedIds, i ∉ currentIds)) := by
        rintro (⟨i, hi1, hi2⟩ | ⟨i, hi1, hi2⟩)
        · exact hi2 (hsub1 i hi1)
        · exact hi2 (hsub2 i hi1)
      show (0 : Nat) = _
      rw [if_neg hnochange]
  · simp only [hempty, Bool.false_eq_true, if_false]
    obtain ⟨hu1, hu2, hu3⟩ := syncLoop_spec env newAlphas
      ⟨staleIds.foldl (fun ix j => adel j ix) index0,
        staleIds.foldl (fun dk j => adel j dk) disk0⟩ 0 hoknew
    have hex1 : newAlphas ≠ [] → ∃ i ∈ currentIds, i ∉ cachedIds := by
      intro h
      obtain ⟨a, ha⟩ := List.exists_mem_of_ne_nil newAlphas h
      have hmm := (hmem_newkeys a.1).mp (List.mem_map_of_mem _ ha)
      exact ⟨a.1, hmm.1, hmm.2⟩
    have hex2 : staleIds ≠ [] → ∃ i ∈ cachedIds, i ∉ currentIds := by
      intro h
      obtain ⟨i, hi⟩ := List.exists_mem_of_ne_nil staleIds h
      have hmm := (hmem_stale i).mp hi
      exact ⟨i, hmm.1, hmm.2⟩
    have hex3 : (∃ i ∈ currentIds, i ∉ cachedIds) → newAlphas ≠ [] := by
      rintro ⟨i, hi1, hi2⟩ hn2
      have hmm : i ∈ newAlphas.map Prod.fst := (hmem_newkeys i).mpr ⟨hi1, hi2⟩
      rw [hn2] at hmm
      cases hmm
    have hex4 : (∃ i ∈ cachedIds, i ∉ currentIds) → staleIds ≠ [] := by
      rintro ⟨i, hi1, hi2⟩ hn2
      have hmm : i ∈ staleIds := (hmem_stale i).mpr ⟨hi1, hi2⟩
      rw [hn2] at hmm
      cases hmm
    refine ⟨?_, ?_, ?_, ?_⟩
    · intro i
      by_cases hin : i ∈ newAlphas.map Prod.fst
      · exact ⟨fun _ => ((hmem_newkeys i).mp hin).1, fun _ => hu2 i hin⟩
      · show (aget i (newAlphas.foldl (syncStep env) (_, 0)).1.indexAlphas).isSome
            = true ↔ _
        rw [(hu1 i hin).1]
        show (aget i (staleIds.foldl (fun ix j => adel j ix) index0)).isSome
            = true ↔ _
        rw [hidx1 i]
        by_cases his : i ∈ staleIds
        · simp only [his, if_true]
          constructor
          · intro h; cases h
          · intro hcur
            exact absurd hcur ((hmem_stale i).mp his).2
        · simp only [his, if_false]
          rw [aget_isSome]
          constructor
          · intro hic
            by_contra hnc
            exact his ((hmem_stale i).mpr ⟨hic, hnc⟩)
          · intro hic
            by_cases hicc : i ∈ cachedIds
            · exact hicc
            · exact absurd ((hmem_newkeys i).mpr ⟨hic, hicc⟩) hin
    · intro i hic hinc
      have his : i ∈ staleIds := (hmem_stale i).mpr ⟨hic, hinc⟩
      have hin : i ∉ newAlphas.map Prod.fst := by
        intro h
        exact hinc ((hmem_newkeys i).mp h).1
      constructor
      · show aget i (newAlphas.foldl (syncStep env) (_, 0)).1.indexAlphas = none
        rw [(hu1 i hin).1]
        show aget i (staleIds.foldl (fun ix j => adel j ix) index0) = none
        rw [hidx1 i, if_pos his]
      · show aget i (newAlphas.foldl (syncStep env) (_, 0)).1.disk = none
        rw [(hu1 i hin).2]
        show aget i (staleIds.foldl (fun dk j => adel j dk) disk0) = none
        rw [hdisk1 i, if_pos his]
    · intro i hic hcur
      have his : i ∉ staleIds := by
        intro h
        exact ((hmem_stale i).mp h).2 hcur
      have hin : i ∉ newAlphas.map Prod.fst := by
        intro h
        exact ((hmem_newkeys i).mp h).2 hic
      show aget i (newAlphas.foldl (syncStep env) (_, 0)).1.disk = aget i disk0
      rw [(hu1 i hin).2]
      show aget i (staleIds.foldl (fun dk j => adel j dk) disk0) = aget i disk0
      rw [hdisk1 i, if_neg his]
    · show (if 0 < (newAlphas.foldl (syncStep env)
          (⟨staleIds.foldl (fun ix j => adel j ix) index0,
            staleIds.foldl (fun dk j => adel j dk) disk0⟩, 0)).2 ||
          !staleIds.isEmpty then 1 else 0) = _
      rw [hu3]
      split
      · next h =>
        simp only [Bool.or_eq_true, decide_eq_true_eq, Bool.not_eq_true',
          List.isEmpty_eq_false] at h
        rcases h with h | h
        · rw [if_pos (Or.inl (hex1 (List.length_pos.mp (by omega))))]
        · rw [if_pos (Or.inr (hex2 h))]
      · next h =>
        simp only [Bool.or_eq_true, decide_eq_true_eq, Bool.not_eq_true',
          List.isEmpty_eq_false, not_or] at h
        obtain ⟨h1, h2⟩ := h
        rw [if_neg]
        rintro (hh | hh)
        · exact h1 (by have := List.length_pos.mpr (hex3 hh); omega)
        · exact h2 (hex4 hh)

/-- Witness for C5: a roster {Y, Z} against a cached index {X, Y} with all
fetches succeeding; X is stale, Z is new, and the index key set afterwards
is exactly the roster. -/
theorem claim_C5_witness :
    (∀ a ∈ c5envW.roster, (c5envW.fetchSeries a.1).isSome = true) ∧
    (∀ i, (aget i (syncBaseline c5loaded [] c5envW).st.indexAlphas).isSome
        = true ↔ i ∈ c5envW.roster.map Prod.fst) :=
  ⟨by intro a _; rfl, (claim_C5 c5loaded [] c5envW (by intro a _; rfl)).1⟩

/-- Round-half-even sits between the floor and the floor plus one. -/
theorem roundHalfEven_bounds (z : ℚ) :
    ⌊z⌋ ≤ roundHalfEven z ∧ roundHalfEven z ≤ ⌊z⌋ + 1 := by
  simp only [roundHalfEven]
  split_ifs <;> omega

/-- Round-half-even is monotone. -/
theorem roundHalfEven_mono {x y : ℚ} (h : x ≤ y) :
    roundHalfEven x ≤ roundHalfEven y := by
  rcases lt_or_eq_of_le (Int.floor_le_floor h) with hlt | heq
  · have h1 := (roundHalfEven_bounds x).2
    have h2 := (roundHalfEven_bounds y).1
    omega
  · simp only [roundHalfEven]
    rw [← heq]
    split_ifs <;> first | omega | (exfalso; linarith)

/-- Python `round(x, 4)` is monotone. -/
theorem round4_mono {x y : ℚ} (h : x ≤ y) : round4 x ≤ round4 y := by
  unfold round4
  have hm : roundHalfEven (x * 10000) ≤ roundHalfEven (y * 10000) :=
    roundHalfEven_mono (by linarith)
  have hc : ((roundHalfEven (x * 10000) : ℚ)) ≤ ((roundHalfEven (y * 10000) : ℚ)) := by
    exact_mod_cast hm
  linarith

/-- In a list sorted by `r`, every element is related to the last one. -/
theorem sorted_rel_getLast {α : Type _} {r : α → α → Prop} (hrefl : ∀ a, r a a) :
    ∀ (l : List α), List.Sorted r l → ∀ (hne : l ≠ []) (q : α), q ∈ l →
      r q (l.getLast hne)
  | [], _, hne => (hne rfl).elim
  | [a], _, _ => by
    intro q hq
    have hqa : q = a := by simpa using hq
    subst hqa
    exact hrefl q
  | a :: b :: t, hs, hne => by
    intro q hq
    have ht : (b :: t) ≠ [] := by simp
    have hlast : (a :: b :: t).getLast hne = (b :: t).getLast ht :=
      List.getLast_cons ht
    rw [hlast]
    rcases List.mem_cons.mp hq with rfl | hq2
    · exact (List.sorted_cons.mp hs).1 _ (List.getLast_mem ht)
    · exact sorted_rel_getLast hrefl (b :: t) (List.sorted_cons.mp hs).2 ht q hq2

/-- C4: on the success path of `fetch_correlation` (non-PROD, non-empty
frames, region set, baseline resolved, 30 or more common dates, candidate
column present, at least one finite correlation), the result has exactly one
record per surviving baseline entity (same count, same id multiset), the
records' correlations are in descending order, each record is the SELF
record of its survivor with the correlation rounded to 4 decimal places,
and `max`/`min` are the rounded first/last sorted values, i.e. the rounded
maximal/minimal surviving correlations. -/
theorem claim_C4 (alphas : List (String × AlphaIndexEntry))
    (cachedReturns : Frame) (kernel : CorrKernel) (alphaId : String)
    (candidateReturns : Frame) (region : String) (corrType : CorrType)
    (years : Int) (candSeries : Series)
    (bids : List String) (common : List Int) (survivors : List (String × ℚ))
    (hbids : bids = resolvedBaselineIds alphas cachedReturns corrType region)
    (hcommon : common = commonDatesOf (trimReturns candidateReturns years)
      (trimReturns (selectCols cachedReturns bids) years))
    (hsurv : survivors = survivorsOf kernel bids
      (trimReturns (selectCols cachedReturns bids) years) candSeries common)
    (hprod : corrType ≠ CorrType.PROD)
    (hc1 : frameEmpty cachedReturns = false)
    (hc2 : frameEmpty candidateReturns = false)
    (hc3 : region ≠ "")
    (hb : bids ≠ [])
    (h30 : ¬ common.length < 30)
    (hcol : colOf (trimReturns candidateReturns years) alphaId = some candSeries)
    (hne : survivors ≠ []) :
    ∃ cd, fetchCorrelation alphas cachedReturns kernel alphaId candidateReturns
        region corrType years = Except.ok cd ∧
      cd.records.length = survivors.length ∧
      List.Perm (cd.records.map (fun r => r.id)) (survivors.map Prod.fst) ∧
      List.Pairwise (fun x y => y ≤ x)
        (cd.records.map (fun r => r.correlation)) ∧
      (∀ r ∈ cd.records, ∃ p ∈ survivors,
        r = mkSelfRow alphas p ∧ r.correlation = round4 p.2) ∧
      (∃ pmax ∈ survivors, cd.max = some (round4 pmax.2) ∧
        ∀ q ∈ survivors, q.2 ≤ pmax.2) ∧
      (∃ pmin ∈ survivors, cd.min = some (round4 pmin.2) ∧
        ∀ q ∈ survivors, pmin.2 ≤ q.2) := by
  subst hbids
  subst hcommon
  subst hsurv
  haveI ht1 : IsTotal (String × ℚ) (fun a b => b.2 ≤ a.2) :=
    ⟨fun a b => le_total b.2 a.2⟩
  haveI ht2 : IsTrans (String × ℚ) (fun a b => b.2 ≤ a.2) :=
    ⟨fun a b c h1 h2 => le_trans h2 h1⟩
  have hperm : List.Perm
      (sortCorrDesc (survivorsOf kernel
        (resolvedBaselineIds alphas cachedReturns corrType region)
        (trimReturns (selectCols cachedReturns
          (resolvedBaselineIds alphas cachedReturns corrType region)) years)
        candSeries
        (commonDatesOf (trimReturns candidateReturns years)
          (trimReturns (selectCols cachedReturns
            (resolvedBaselineIds alphas cachedReturns corrType region)) years))))
      (survivorsOf kernel
        (resolvedBaselineIds alphas cachedReturns corrType region)
        (trimReturns (selectCols cachedReturns
          (resolvedBaselineIds alphas cachedReturns corrType region)) years)
        candSeries
        (commonDatesOf (trimReturns candidateReturns years)
          (trimReturns (selectCols cachedReturns
            (resolvedBaselineIds alphas cachedReturns corrType region)) years))) :=
    List.perm_insertionSort _ _
  have hsorted : List.Sorted (fun (a : String × ℚ) b => b.2 ≤ a.2)
      (sortCorrDesc (survivorsOf kernel
        (resolvedBaselineIds alphas cachedReturns corrType region)
        (trimReturns (selectCols cachedReturns
          (resolvedBaselineIds alphas cachedReturns corrType region)) years)
        candSeries
        (commonDatesOf (trimReturns candidateReturns years)
          (trimReturns (selectCols cachedReturns
            (resolvedBaselineIds alphas cachedReturns corrType region)) years)))) :=
    List.sorted_insertionSort _ _
  cases hs : sortCorrDesc (survivorsOf kernel
      (resolvedBaselineIds alphas cachedReturns corrType region)
      (trimReturns (selectCols cachedReturns
        (resolvedBaselineIds alphas cachedReturns corrType region)) years)
      candSeries
      (commonDatesOf (trimReturns candidateReturns years)
        (trimReturns (selectCols cachedReturns
          (resolvedBaselineIds alphas cachedReturns corrType region)) years))) with
  | nil =>
    rw [hs] at hperm
    exact absurd hperm.symm.eq_nil hne
  | cons top rest =>
    rw [hs] at hperm hsorted
    refine ⟨{ schemaName := some SchemaName.SELF
              max := some (round4 top.2)
              min := some (round4 ((top :: rest).getLast (by simp)).2)
              records := (top :: rest).map (mkSelfRow alphas) },
      ?_, ?_, ?_, ?_, ?_, ?_, ?_⟩
    · have h1 : (frameEmpty cachedReturns || frameEmpty candidateReturns ||
          decide (region = "")) = false := by
        rw [hc1, hc2]
        simp [hc3]
      have h2 : (resolvedBaselineIds alphas cachedReturns corrType
          region).isEmpty = false := by
        simp only [List.isEmpty_eq_false]
        exact hb
      unfold fetchCorrelation
      rw [if_neg hprod]
      simp only [h1, Bool.false_eq_true, if_false, h2, if_neg h30, hcol, hs]
    · rw [List.length_map]
      exact hperm.length_eq
    · rw [List.map_map]
      exact hperm.map _
    · rw [List.map_map]
      exact List.Pairwise.map _ (fun a b hab => round4_mono hab) hsorted
    · intro r hr
      obtain ⟨p, hp, rfl⟩ := List.mem_map.mp hr
      exact ⟨p, hperm.subset hp, rfl, rfl⟩
    · refine ⟨top, hperm.subset (List.mem_cons_self top rest), rfl, ?_⟩
      intro q hq
      rcases List.mem_cons.mp (hperm.symm.subset hq) with rfl | hq2
      · exact le_refl _
      · exact (List.sorted_cons.mp hsorted).1 q hq2
    · refine ⟨(top :: rest).getLast (by simp),
        hperm.subset (List.getLast_mem (by simp)), rfl, ?_⟩
      intro q hq
      exact @sorted_rel_getLast _ (fun a b => b.2 ≤ a.2) (fun a => le_refl a.2)
        (top :: rest) hsorted (by simp) q (hperm.symm.subset hq)

set_option maxRecDepth 16000 in
/-- Witness for C4: candidate A against baseline B with 30 common dates and
a kernel yielding correlation 1; the sole survivor B produces the sole
record, and `max = min = 1`. -/
theorem claim_C4_witness :
    (["B"] : List String)
      = resolvedBaselineIds c4alphas [("B", c4base)] CorrType.SELF "USA" ∧
    c4dates = commonDatesOf (trimReturns [("A", c4cand)] 4)
      (trimReturns (selectCols [("B", c4base)] ["B"]) 4) ∧
    [("B", (1 : ℚ))] = survivorsOf c4kernel ["B"]
      (trimReturns (selectCols [("B", c4base)] ["B"]) 4) c4cand c4dates ∧
    CorrType.SELF ≠ CorrType.PROD ∧
    frameEmpty [("B", c4base)] = false ∧
    frameEmpty [("A", c4cand)] = false ∧
    ("USA" : String) ≠ "" ∧
    (["B"] : List String) ≠ [] ∧
    ¬ c4dates.length < 30 ∧
    colOf (trimReturns [("A", c4cand)] 4) "A" = some c4cand ∧
    ([("B", (1 : ℚ))] : List (String × ℚ)) ≠ [] ∧
    (∃ cd, fetchCorrelation c4alphas [("B", c4base)] c4kernel "A"
        [("A", c4cand)] "USA" CorrType.SELF 4 = Except.ok cd ∧
      cd.records.length = ([("B", (1 : ℚ))] : List (String × ℚ)).length ∧
      List.Perm (cd.records.map (fun r => r.id))
        (([("B", (1 : ℚ))] : List (String × ℚ)).map Prod.fst) ∧
      List.Pairwise (fun x y => y ≤ x)
        (cd.records.map (fun r => r.correlation)) ∧
      (∀ r ∈ cd.records, ∃ p ∈ ([("B", (1 : ℚ))] : List (String × ℚ)),
        r = mkSelfRow c4alphas p ∧ r.correlation = round4 p.2) ∧
      (∃ pmax ∈ ([("B", (1 : ℚ))] : List (String × ℚ)),
        cd.max = some (round4 pmax.2) ∧
        ∀ q ∈ ([("B", (1 : ℚ))] : List (String × ℚ)), q.2 ≤ pmax.2) ∧
      (∃ pmin ∈ ([("B", (1 : ℚ))] : List (String × ℚ)),
        cd.min = some (round4 pmin.2) ∧
        ∀ q ∈ ([("B", (1 : ℚ))] : List (String × ℚ)), pmin.2 ≤ q.2)) :=
  ⟨by decide, by decide, by decide, by decide, by decide, by decide,
    by decide, by decide, by decide, by decide, by decide,
    claim_C4 c4alphas [("B", c4base)] c4kernel "A" [("A", c4cand)] "USA"
      CorrType.SELF 4 c4cand ["B"] c4dates [("B", (1 : ℚ))]
      (by decide) (by decide) (by decide) (by decide) (by decide) (by decide)
      (by decide) (by decide) (by decide) (by decide) (by decide)⟩

theorem reachesIn_root_none {p : List (String × String)} {k : Nat} {x r : String}
    (h : ReachesIn p k x r) : aget r p = none := by
  induction h with
  | root x hx => exact hx
  | step k x y r hx hy ih => exact ih

theorem reachesIn_det {p : List (String × String)} {k1 k2 : Nat} {x r1 r2 : String}
    (h1 : ReachesIn p k1 x r1) (h2 : ReachesIn p k2 x r2) : r1 = r2 := by
  induction h1 generalizing k2 with
  | root x hx =>
    cases h2 with
    | root _ _ => rfl
    | step k2 _ y _ hx2 hy2 => rw [hx] at hx2; cases hx2
  | step k x y r hx hy ih =>
    cases h2 with
    | root _ hx2 => rw [hx] at hx2; cases hx2
    | step k2 _ y2 _ hx2 hy2 =>
      rw [hx] at hx2
      cases hx2
      exact ih hy2

theorem ufFind_of_reaches {p : List (String × String)} {k : Nat} {x r : String}
    (h : ReachesIn p k x r) : ∀ fuel, k ≤ fuel → ufFind fuel p x = r := by
  induction h with
  | root x hx =>
    intro fuel _
    cases fuel with
    | zero => rfl
    | succ f => simp [ufFind, hx]
  | step k x y r hx hy ih =>
    intro fuel hf
    cases fuel with
    | zero => omega
    | succ f =>
      simp only [ufFind, hx]
      exact ih f (by omega)

theorem ufRoot_spec {p : List (String × String)} (hinv : UFInv p) (x : String) :
    ∃ k, ReachesIn p k x (ufRoot p x) ∧ k ≤ p.length := by
  obtain ⟨r, k, hr, hk⟩ := hinv x
  have : ufRoot p x = r := ufFind_of_reaches hr (p.length + 1) (by omega)
  rw [this]
  exact ⟨k, hr, hk⟩

theorem ufRoot_of_reaches {p : List (String × String)} {k : Nat} {x r : String}
    (hinv : UFInv p) (h : ReachesIn p k x r) : ufRoot p x = r := by
  obtain ⟨k2, h2, _⟩ := ufRoot_spec hinv x
  exact reachesIn_det h2 h

/-- The root returned by `ufRoot` has no parent entry. -/
theorem ufRoot_isRoot {p : List (String × String)} (hinv : UFInv p) (x : String) :
    aget (ufRoot p x) p = none := by
  obtain ⟨k, h, _⟩ := ufRoot_spec hinv x
  exact reachesIn_root_none h

/-- Lifting a chase across a newly added root-to-root link: chains not
ending at `ra` are untouched; chains ending at `ra` gain one hop to `rb`. -/
theorem reachesIn_cons {p : List (String × String)} {ra rb : String}
    (hra : aget ra p = none) (hrb : aget rb p = none) (hne : rb ≠ ra) :
    ∀ {k : Nat} {x r : String}, ReachesIn p k x r →
      (r ≠ ra ∧ ReachesIn ((ra, rb) :: p) k x r) ∨
      (r = ra ∧ ReachesIn ((ra, rb) :: p) (k + 1) x rb) := by
  intro k x r h
  induction h with
  | root x hx =>
    by_cases hxa : x = ra
    · subst hxa
      refine Or.inr ⟨rfl, ?_⟩
      refine ReachesIn.step 0 x rb rb ?_ ?_
      · simp [aget]
      · exact ReachesIn.root rb (by simp [aget, hrb, Ne.symm hne])
    · refine Or.inl ⟨hxa, ReachesIn.root x ?_⟩
      simp [aget, hx, Ne.symm hxa]
  | step k x y r hx hy ih =>
    have hxa : x ≠ ra := by
      intro he
      rw [he, hra] at hx
      cases hx
    have hx2 : aget x ((ra, rb) :: p) = some y := by
      simp [aget, hx, Ne.symm hxa]
    rcases ih with ⟨hr, hc⟩ | ⟨hr, hc⟩
    · exact Or.inl ⟨hr, ReachesIn.step k x y r hx2 hc⟩
    · exact Or.inr ⟨hr, ReachesIn.step (k + 1) x y rb hx2 hc⟩

/-- `union` preserves well-foundedness of the parent map. -/
theorem ufInv_union {p : List (String × String)} (hinv : UFInv p) (a b : String) :
    UFInv (ufUnion p a b) := by
  unfold ufUnion
  by_cases hr : ufRoot p a = ufRoot p b
  · simpa [hr] using hinv
  · simp only [hr, if_false]
    intro x
    obtain ⟨r, k, hx, hk⟩ := hinv x
    rcases reachesIn_cons (ufRoot_isRoot hinv a) (ufRoot_isRoot hinv b)
        (fun he => hr he.symm) hx with ⟨_, hc⟩ | ⟨_, hc⟩
    · exact ⟨r, k, hc, by simp; omega⟩
    · exact ⟨ufRoot p b, k + 1, hc, by simp; omega⟩

/-- How `union a b` moves roots: everything rooted at `a`'s root is now
rooted at `b`'s root; all other roots are unchanged. -/
theorem ufRoot_union {p : List (String × String)} (hinv : UFInv p) (a b x : String) :
    ufRoot (ufUnion p a b) x
      = if ufRoot p x = ufRoot p a then ufRoot p b else ufRoot p x := by
  unfold ufUnion
  by_cases hr : ufRoot p a = ufRoot p b
  · simp only [hr, if_true]
    split
    · next h => exact h
    · rfl
  · simp only [hr, if_false]
    obtain ⟨k, hx, _⟩ := ufRoot_spec hinv x
    have hinv2 : UFInv ((ufRoot p a, ufRoot p b) :: p) := by
      have := ufInv_union hinv a b
      unfold ufUnion at this
      simpa [hr] using this
    rcases reachesIn_cons (ufRoot_isRoot hinv a) (ufRoot_isRoot hinv b)
        (fun he => hr he.symm) hx with ⟨hne2, hc⟩ | ⟨he, hc⟩
    · rw [if_neg hne2]
      exact ufRoot_of_reaches hinv2 hc
    · rw [if_pos he]
      exact ufRoot_of_reaches hinv2 hc

/-- Connectivity is monotone in the pair list. -/
theorem conn_mono {ps qs : List (String × String × ℚ)} {x y : String}
    (h : Conn ps x y) : Conn (ps ++ qs) x y := by
  induction h with
  | refl x => exact Conn.refl x
  | symm _ ih => exact ih.symm
  | trans _ _ ih1 ih2 => exact ih1.trans ih2
  | edge x y c hm => exact Conn.edge x y c (List.mem_append_left _ hm)

/-- With no pairs, connectivity is equality. -/
theorem conn_nil {x y : String} : Conn [] x y ↔ x = y := by
  constructor
  · intro h
    induction h with
    | refl x => rfl
    | symm _ ih => exact ih.symm
    | trans _ _ ih1 ih2 => exact ih1.trans ih2
    | edge x y c hm => cases hm
  · rintro rfl
    exact Conn.refl x

/-- Adding one edge `(a, b)` to the pair list: the new connectivity either
held already or routes through the new edge in one of its two directions. -/
theorem conn_append_single {ps : List (String × String × ℚ)} {a b : String}
    {c : ℚ} {x y : String} :
    Conn (ps ++ [(a, b, c)]) x y ↔
      Conn ps x y ∨ (Conn ps x a ∧ Conn ps b y) ∨ (Conn ps x b ∧ Conn ps a y) := by
  constructor
  · intro h
    induction h with
    | refl x => exact Or.inl (Conn.refl x)
    | symm _ ih =>
      rcases ih with h1 | ⟨h2, h3⟩ | ⟨h4, h5⟩
      · exact Or.inl h1.symm
      · exact Or.inr (Or.inr ⟨h3.symm, h2.symm⟩)
      · exact Or.inr (Or.inl ⟨h5.symm, h4.symm⟩)
    | trans _ _ ih1 ih2 =>
      rcases ih1 with h1 | ⟨h2, h3⟩ | ⟨h4, h5⟩ <;>
        rcases ih2 with g1 | ⟨g2, g3⟩ | ⟨g4, g5⟩
      · exact Or.inl (h1.trans g1)
      · exact Or.inr (Or.inl ⟨h1.trans g2, g3⟩)
      · exact Or.inr (Or.inr ⟨h1.trans g4, g5⟩)
      · exact Or.inr (Or.inl ⟨h2, h3.trans g1⟩)
      · exact Or.inr (Or.inl ⟨h2, g3⟩)
      · exact Or.inl (h2.trans g5)
      · exact Or.inr (Or.inr ⟨h4, h5.trans g1⟩)
      · exact Or.inl (h4.trans g3)
      · exact Or.inr (Or.inr ⟨h4, g5⟩)
    | edge u v d hm =>
      rcases List.mem_append.mp hm with h1 | h2
      · exact Or.inl (Conn.edge u v d h1)
      · simp only [List.mem_singleton, Prod.mk.injEq] at h2
        obtain ⟨rfl, rfl, rfl⟩ := h2
        exact Or.inr (Or.inl ⟨Conn.refl u, Conn.refl v⟩)
  · rintro (h | ⟨h1, h2⟩ | ⟨h1, h2⟩)
    · exact conn_mono h
    · exact (conn_mono h1).trans
        ((Conn.edge a b c (by simp)).trans (conn_mono h2))
    · exact (conn_mono h1).trans
        ((Conn.edge a b c (by simp)).symm.trans (conn_mono h2))

/-- One `union` step keeps the invariant: roots coincide exactly on the
connectivity of the pairs processed so far. -/
theorem ufUnion_spec {p : List (String × String)}
    {ps : List (String × String × ℚ)} (hinv : UFInv p)
    (hiff : ∀ x y, ufRoot p x = ufRoot p y ↔ Conn ps x y) (a b : String) (c : ℚ) :
    UFInv (ufUnion p a b) ∧
      ∀ x y, ufRoot (ufUnion p a b) x = ufRoot (ufUnion p a b) y ↔
        Conn (ps ++ [(a, b, c)]) x y := by
  refine ⟨ufInv_union hinv a b, fun x y => ?_⟩
  rw [ufRoot_union hinv a b x, ufRoot_union hinv a b y, conn_append_single]
  by_cases hx : ufRoot p x = ufRoot p a <;>
    by_cases hy : ufRoot p y = ufRoot p a
  · rw [if_pos hx, if_pos hy]
    constructor
    · intro _
      exact Or.inl ((hiff x y).mp (hx.trans hy.symm))
    · intro _
      rfl
  · rw [if_pos hx, if_neg hy]
    constructor
    · intro h
      exact Or.inr (Or.inl ⟨(hiff x a).mp hx, (hiff b y).mp h⟩)
    · rintro (h | ⟨h1, h2⟩ | ⟨h1, h2⟩)
      · exact absurd (((hiff x y).mpr h).symm.trans hx) hy
      · exact (hiff b y).mpr h2
      · exact absurd ((hiff a y).mpr h2).symm hy
  · rw [if_neg hx, if_pos hy]
    constructor
    · intro h
      exact Or.inr (Or.inr ⟨(hiff x b).mp h, (hiff a y).mp hy.symm⟩)
    · rintro (h | ⟨h1, h2⟩ | ⟨h1, h2⟩)
      · exact absurd (((hiff x y).mpr h).trans hy) hx
      · exact absurd ((hiff x a).mpr h1) hx
      · exact (hiff x b).mpr h1
  · rw [if_neg hx, if_neg hy]
    constructor
    · intro h
      exact Or.inl ((hiff x y).mp h)
    · rintro (h | ⟨h1, h2⟩ | ⟨h1, h2⟩)
      · exact (hiff x y).mpr h
      · exact absurd ((hiff x a).mpr h1) hx
      · exact absurd ((hiff a y).mpr h2).symm hy

/-- The union loop over a pair suffix, starting from any invariant state. -/
theorem ufBuild_loop (rest : List (String × String × ℚ)) :
    ∀ (p : List (String × String)) (ps : List (String × String × ℚ)),
      UFInv p → (∀ x y, ufRoot p x = ufRoot p y ↔ Conn ps x y) →
      UFInv (rest.foldl (fun p q => ufUnion p q.1 q.2.1) p) ∧
        ∀ x y, ufRoot (rest.foldl (fun p q => ufUnion p q.1 q.2.1) p) x
            = ufRoot (rest.foldl (fun p q => ufUnion p q.1 q.2.1) p) y ↔
          Conn (ps ++ rest) x y := by
  induction rest with
  | nil =>
    intro p ps hinv hiff
    simpa using ⟨hinv, hiff⟩
  | cons e rest ih =>
    intro p ps hinv hiff
    obtain ⟨hinv2, hiff2⟩ := ufUnion_spec hinv hiff e.1 e.2.1 e.2.2
    have he : (e.1, e.2.1, e.2.2) = e := rfl
    rw [he] at hiff2
    obtain ⟨hinv3, hiff3⟩ := ih (ufUnion p e.1 e.2.1) (ps ++ [e]) hinv2 hiff2
    refine ⟨hinv3, fun x y => ?_⟩
    rw [List.foldl_cons]
    rw [List.append_assoc, List.singleton_append] at hiff3
    exact hiff3 x y

/-- `ufBuild`: the parent forest is well-founded, and two ids share a root
exactly when they are connected by the processed pairs. -/
theorem ufBuild_spec (pairs : List (String × String × ℚ)) :
    UFInv (ufBuild pairs) ∧
      ∀ x y, ufRoot (ufBuild pairs) x = ufRoot (ufBuild pairs) y ↔
        Conn pairs x y := by
  have h0inv : UFInv ([] : List (String × String)) := by
    intro x
    exact ⟨x, 0, ReachesIn.root x rfl, Nat.le_refl 0⟩
  have h0iff : ∀ x y, ufRoot [] x = ufRoot [] y ↔ Conn [] x y := by
    intro x y
    have hx : ufRoot [] x = x := rfl
    have hy : ufRoot [] y = y := rfl
    rw [hx, hy, conn_nil]
  have := ufBuild_loop pairs [] [] h0inv h0iff
  simpa [ufBuild] using this

theorem mem_sdedupAux (x : String) :
    ∀ (l seen : List String), x ∈ sdedupAux l seen ↔ (x ∈ l ∧ x ∉ seen) := by
  intro l
  induction l with
  | nil =>
    intro seen
    simp [sdedupAux]
  | cons k rest ih =>
    intro seen
    by_cases hk : k ∈ seen
    · rw [sdedupAux, if_pos hk, ih]
      constructor
      · rintro ⟨h1, h2⟩
        exact ⟨List.mem_cons_of_mem _ h1, h2⟩
      · rintro ⟨h1, h2⟩
        rcases List.mem_cons.mp h1 with rfl | h3
        · exact absurd hk h2
        · exact ⟨h3, h2⟩
    · rw [sdedupAux, if_neg hk]
      constructor
      · intro h
        rcases List.mem_cons.mp h with rfl | h2
        · exact ⟨List.mem_cons_self _ _, hk⟩
        · obtain ⟨h3, h4⟩ := (ih (k :: seen)).mp h2
          exact ⟨List.mem_cons_of_mem _ h3,
            fun hc => h4 (List.mem_cons_of_mem _ hc)⟩
      · rintro ⟨h1, h2⟩
        rcases List.mem_cons.mp h1 with rfl | h3
        · exact List.mem_cons_self _ _
        · by_cases hxk : x = k
          · subst hxk
            exact List.mem_cons_self _ _
          · exact List.mem_cons_of_mem _ ((ih (k :: seen)).mpr
              ⟨h3, fun hc => (List.mem_cons.mp hc).elim hxk h2⟩)

theorem mem_sdedup (x : String) (l : List String) : x ∈ sdedup l ↔ x ∈ l := by
  rw [sdedup, mem_sdedupAux]
  simp

theorem sdedupAux_nodup : ∀ (l seen : List String), (sdedupAux l seen).Nodup := by
  intro l
  induction l with
  | nil =>
    intro seen
    simp [sdedupAux]
  | cons k rest ih =>
    intro seen
    by_cases hk : k ∈ seen
    · rw [sdedupAux, if_pos hk]
      exact ih seen
    · rw [sdedupAux, if_neg hk]
      refine List.nodup_cons.mpr ⟨?_, ih (k :: seen)⟩
      intro hc
      exact ((mem_sdedupAux k rest (k :: seen)).mp hc).2 (List.mem_cons_self _ _)

theorem sdedup_nodup (l : List String) : (sdedup l).Nodup := sdedupAux_nodup l []

/-- Shape of a `clusterGroups` entry. -/
theorem mem_clusterGroups {ids : List String} {parent : List (String × String)}
    {g : String × List String} :
    g ∈ clusterGroups ids parent ↔
      g.1 ∈ sdedup (ids.map (ufRoot parent)) ∧
        g.2 = ids.filter (fun a => decide (ufRoot parent a = g.1)) := by
  rw [clusterGroups, List.mem_map]
  constructor
  · rintro ⟨rt, hrt, rfl⟩
    exact ⟨hrt, rfl⟩
  · rintro ⟨h1, h2⟩
    exact ⟨g.1, h1, by rw [← h2]⟩

/-- Every member of a cluster group has the group key as its root. -/
theorem clusterGroups_root {ids : List String} {parent : List (String × String)}
    {g : String × List String} (hg : g ∈ clusterGroups ids parent) :
    ∀ a ∈ g.2, ufRoot parent a = g.1 := by
  intro a ha
  rw [(mem_clusterGroups.mp hg).2] at ha
  simpa using (List.mem_filter.mp ha).2

/-- Cluster groups are nonempty. -/
theorem clusterGroups_ne_nil {ids : List String} {parent : List (String × String)}
    {g : String × List String} (hg : g ∈ clusterGroups ids parent) : g.2 ≠ [] := by
  obtain ⟨h1, h2⟩ := mem_clusterGroups.mp hg
  rw [mem_sdedup, List.mem_map] at h1
  obtain ⟨a, ha, hrt⟩ := h1
  intro hnil
  have : a ∈ g.2 := by
    rw [h2, List.mem_filter]
    exact ⟨ha, by simpa using hrt⟩
  rw [hnil] at this
  cases this

/-- The group keys are exactly the deduplicated roots, hence pairwise
distinct. -/
theorem clusterGroups_keys (ids : List String) (parent : List (String × String)) :
    (clusterGroups ids parent).map Prod.fst = sdedup (ids.map (ufRoot parent)) := by
  rw [clusterGroups]
  generalize sdedup (ids.map (ufRoot parent)) = l
  induction l with
  | nil => rfl
  | cons a t ih =>
    simp only [List.map_cons]
    rw [ih]

theorem listMaxQ_le {l : List ℚ} {m : ℚ} (h : listMaxQ l = some m) :
    ∀ x ∈ l, x ≤ m := by
  induction l generalizing m with
  | nil => cases h
  | cons a rest ih =>
    intro x hx
    rw [listMaxQ] at h
    cases hr : listMaxQ rest with
    | none =>
      rw [hr] at h
      cases h
      rcases List.mem_cons.mp hx with rfl | h2
      · exact le_refl x
      · cases rest with
        | nil => cases h2
        | cons b r2 =>
          rw [listMaxQ] at hr
          cases hr2 : listMaxQ r2 <;> rw [hr2] at hr <;> cases hr
    | some m2 =>
      rw [hr] at h
      cases h
      rcases List.mem_cons.mp hx with rfl | h2
      · exact le_max_left _ _
      · exact le_trans (ih hr x h2) (le_max_right _ _)

theorem listMaxQ_mem {l : List ℚ} {m : ℚ} (h : listMaxQ l = some m) : m ∈ l := by
  induction l generalizing m with
  | nil => cases h
  | cons a rest ih =>
    rw [listMaxQ] at h
    cases hr : listMaxQ rest with
    | none =>
      rw [hr] at h
      cases h
      exact List.mem_cons_self _ _
    | some m2 =>
      rw [hr] at h
      cases h
      rcases max_choice a m2 with hm | hm
      · rw [hm]
        exact List.mem_cons_self _ _
      · rw [hm]
        exact List.mem_cons_of_mem _ (ih hr)

theorem listMaxQ_isSome {l : List ℚ} (h : l ≠ []) : (listMaxQ l).isSome = true := by
  cases l with
  | nil => exact absurd rfl h
  | cons a rest =>
    rw [listMaxQ]
    cases listMaxQ rest <;> rfl

/-- The head of the Sharpe-sorted member list is a member and has maximal
Sharpe. -/
theorem sortMembers_head (idToSharpe : List (String × ℚ)) {ms : List String}
    (hne : ms ≠ []) :
    (sortMembers idToSharpe ms).headD "" ∈ ms ∧
      ∀ a ∈ ms, sharpeOf idToSharpe a
        ≤ sharpeOf idToSharpe ((sortMembers idToSharpe ms).headD "") := by
  haveI ht1 : IsTotal String
      (fun a b => sharpeOf idToSharpe b ≤ sharpeOf idToSharpe a) :=
    ⟨fun a b => le_total _ _⟩
  haveI ht2 : IsTrans String
      (fun a b => sharpeOf idToSharpe b ≤ sharpeOf idToSharpe a) :=
    ⟨fun a b c h1 h2 => le_trans h2 h1⟩
  have hperm : List.Perm (sortMembers idToSharpe ms) ms :=
    List.perm_insertionSort _ _
  have hsorted : List.Sorted
      (fun a b => sharpeOf idToSharpe b ≤ sharpeOf idToSharpe a)
      (sortMembers idToSharpe ms) := List.sorted_insertionSort _ _
  cases hs : sortMembers idToSharpe ms with
  | nil =>
    rw [hs] at hperm
    exact absurd hperm.symm.eq_nil hne
  | cons h t =>
    rw [hs] at hperm hsorted
    refine ⟨hperm.subset (List.mem_cons_self h t), ?_⟩
    intro a ha
    rcases List.mem_cons.mp (hperm.symm.subset ha) with rfl | h2
    · exact le_refl _
    · exact (List.sorted_cons.mp hsorted).1 a h2

/-- The best Sharpe of a nonempty member list is the Sharpe of the head of
the sorted members. -/
theorem bestSharpe_head (idToSharpe : List (String × ℚ)) {ms : List String}
    (hne : ms ≠ []) :
    bestSharpe idToSharpe ms
      = sharpeOf idToSharpe ((sortMembers idToSharpe ms).headD "") := by
  obtain ⟨hmem, hmax⟩ := sortMembers_head idToSharpe hne
  have hmapne : ms.map (sharpeOf idToSharpe) ≠ [] := by
    intro h
    exact hne (List.map_eq_nil_iff.mp h)
  obtain ⟨m, hm⟩ := Option.isSome_iff_exists.mp (listMaxQ_isSome hmapne)
  rw [bestSharpe, hm]
  simp only [Option.getD_some]
  have h1 : m ≤ sharpeOf idToSharpe ((sortMembers idToSharpe ms).headD "") := by
    obtain ⟨a, ha, he⟩ := List.mem_map.mp (listMaxQ_mem hm)
    rw [← he]
    exact hmax a ha
  have h2 : sharpeOf idToSharpe ((sortMembers idToSharpe ms).headD "") ≤ m :=
    listMaxQ_le hm _ (List.mem_map_of_mem _ hmem)
  exact le_antisymm h1 h2

/-- Every pair collected by the double loop carries the rounded value of a
correlation at or above the threshold. -/
theorem mem_allPairs {df : IntraDf} {thr : ℚ} :
    ∀ {l : List String} {x y : String} {c : ℚ}, (x, y, c) ∈ allPairs df thr l →
      thr ≤ |pairVal df x y| ∧ c = round2 (pairVal df x y) := by
  intro l
  induction l with
  | nil =>
    intro x y c h
    cases h
  | cons a1 rest ih =>
    intro x y c h
    rw [allPairs] at h
    rcases List.mem_append.mp h with h1 | h2
    · obtain ⟨a2, ha2, he⟩ := List.mem_filterMap.mp h1
      by_cases hth : thr ≤ |pairVal df a1 a2|
      · rw [if_pos hth] at he
        obtain ⟨rfl, rfl, rfl⟩ := by
          simpa using he
        exact ⟨hth, rfl⟩
      · rw [if_neg hth] at he
        cases he
    · exact ih h2

/-- Every partner note of `aid` comes from a collected pair containing
`aid`, and carries that pair's value. -/
theorem mem_partnerNotes {pairs : List (String × String × ℚ)} {aid : String}
    {q : String × ℚ} (h : q ∈ partnerNotes pairs aid) :
    ∃ pr ∈ pairs, q.2 = pr.2.2 ∧
      ((pr.1 = aid ∧ q.1 = pr.2.1) ∨ (pr.2.1 = aid ∧ q.1 = pr.1)) := by
  obtain ⟨pr, hpr, he⟩ := List.mem_filterMap.mp h
  by_cases h1 : pr.1 = aid
  · rw [if_pos h1] at he
    obtain ⟨rfl, rfl⟩ := by simpa using he.symm
    exact ⟨pr, hpr, rfl, Or.inl ⟨h1, rfl⟩⟩
  · rw [if_neg h1] at he
    by_cases h2 : pr.2.1 = aid
    · rw [if_pos h2] at he
      obtain ⟨rfl, rfl⟩ := by simpa using he.symm
      exact ⟨pr, hpr, rfl, Or.inr ⟨h2, rfl⟩⟩
    · rw [if_neg h2] at he
      cases he

/-- Row membership in `groupRows`. -/
theorem mem_groupRows {idToSharpe : List (String × ℚ)}
    {pairs : List (String × String × ℚ)} {ci : Nat} {g : String × List String}
    {r : ClusterRow} :
    r ∈ groupRows idToSharpe pairs ci g ↔
      ∃ aid ∈ sortMembers idToSharpe g.2,
        r = { alpha_id := aid
              sharpe := sharpeOf idToSharpe aid
              clusterIdx := ci
              cluster := "C" ++ toString ci
              recommend := if aid = (sortMembers idToSharpe g.2).headD ""
                then "SUBMIT" else "SKIP"
              correlated_with := partnerNotes pairs aid } := by
  rw [groupRows, List.mem_map]
  constructor
  · rintro ⟨aid, ha, rfl⟩
    exact ⟨aid, ha, rfl⟩
  · rintro ⟨aid, ha, rfl⟩
    exact ⟨aid, ha, rfl⟩

/-- Row membership in `rowsOf`: a row comes from the group at some offset,
with the label index shifted accordingly. -/
theorem mem_rowsOf {idToSharpe : List (String × ℚ)}
    {pairs : List (String × String × ℚ)} :
    ∀ (gs : List (String × List String)) (ci : Nat) (r : ClusterRow),
      r ∈ rowsOf idToSharpe pairs ci gs ↔
        ∃ j, ∃ hj : j < gs.length,
          r ∈ groupRows idToSharpe pairs (ci + j) (gs.get ⟨j, hj⟩) := by
  intro gs
  induction gs with
  | nil =>
    intro ci r
    rw [rowsOf]
    simp
  | cons g rest ih =>
    intro ci r
    rw [rowsOf, List.mem_append]
    constructor
    · rintro (h1 | h2)
      · exact ⟨0, by simp, by simpa using h1⟩
      · obtain ⟨j, hj, hr⟩ := (ih (ci + 1) r).mp h2
        refine ⟨j + 1, by simpa using Nat.succ_lt_succ hj, ?_⟩
        rw [show ci + (j + 1) = ci + 1 + j by omega]
        exact hr
    · rintro ⟨j, hj, hr⟩
      cases j with
      | zero =>
        exact Or.inl (by simpa using hr)
      | succ j2 =>
        refine Or.inr ((ih (ci + 1) r).mpr ⟨j2,
          by simp only [List.length_cons] at hj; omega, ?_⟩)
        rw [show ci + 1 + j2 = ci + (j2 + 1) by omega]
        exact hr

/-- The fixed fields of every row a group emits. -/
theorem groupRows_shape {idToSharpe : List (String × ℚ)}
    {pairs : List (String × String × ℚ)} {ci : Nat} {g : String × List String}
    (r : ClusterRow) (hr : r ∈ groupRows idToSharpe pairs ci g) :
    r.clusterIdx = ci ∧ r.cluster = "C" ++ toString ci ∧
      r.sharpe = sharpeOf idToSharpe r.alpha_id ∧
      r.correlated_with = partnerNotes pairs r.alpha_id ∧
      r.alpha_id ∈ g.2 := by
  obtain ⟨aid, haid, rfl⟩ := mem_groupRows.mp hr
  exact ⟨rfl, rfl, rfl, rfl, (List.perm_insertionSort _ _).subset haid⟩

/-- Every nonempty group emits exactly one `SUBMIT` row, carrying the
group's best Sharpe; every other row of the group is `SKIP` and has a
Sharpe no larger. -/
theorem groupRows_submit (idToSharpe : List (String × ℚ))
    (pairs : List (String × String × ℚ)) (ci : Nat) (g : String × List String)
    (hne : g.2 ≠ []) :
    ∃ s ∈ groupRows idToSharpe pairs ci g, s.recommend = "SUBMIT" ∧
      s.sharpe = bestSharpe idToSharpe g.2 ∧
      ∀ r2 ∈ groupRows idToSharpe pairs ci g,
        r2.sharpe ≤ s.sharpe ∧ (r2.recommend = "SUBMIT" → r2 = s) ∧
        (r2 ≠ s → r2.recommend = "SKIP") := by
  have hperm : List.Perm (sortMembers idToSharpe g.2) g.2 :=
    List.perm_insertionSort _ _
  have hsne : sortMembers idToSharpe g.2 ≠ [] := by
    intro h
    rw [h] at hperm
    exact hne hperm.symm.eq_nil
  cases hs : sortMembers idToSharpe g.2 with
  | nil => exact absurd hs hsne
  | cons b t =>
    have hhead : (sortMembers idToSharpe g.2).headD "" = b := by
      rw [hs]
      rfl
    refine ⟨{ alpha_id := b
              sharpe := sharpeOf idToSharpe b
              clusterIdx := ci
              cluster := "C" ++ toString ci
              recommend := if b = (sortMembers idToSharpe g.2).headD ""
                then "SUBMIT" else "SKIP"
              correlated_with := partnerNotes pairs b },
      mem_groupRows.mpr ⟨b, by rw [hs]; exact List.mem_cons_self _ _, rfl⟩,
      ?_, ?_, ?_⟩
    · show (if b = (sortMembers idToSharpe g.2).headD ""
          then "SUBMIT" else "SKIP") = "SUBMIT"
      rw [hhead, if_pos rfl]
    · show sharpeOf idToSharpe b = bestSharpe idToSharpe g.2
      rw [bestSharpe_head idToSharpe hne, hhead]
    · intro r2 hr2
      obtain ⟨aid2, haid2, rfl⟩ := mem_groupRows.mp hr2
      refine ⟨?_, ?_, ?_⟩
      · show sharpeOf idToSharpe aid2 ≤ sharpeOf idToSharpe b
        have h2 := (sortMembers_head idToSharpe hne).2 aid2 (hperm.subset haid2)
        rwa [hhead] at h2
      · intro hsub
        by_cases he : aid2 = (sortMembers idToSharpe g.2).headD ""
        · rw [hhead] at he
          subst he
          rfl
        · rw [show ({ alpha_id := aid2
                      sharpe := sharpeOf idToSharpe aid2
                      clusterIdx := ci
                      cluster := "C" ++ toString ci
                      recommend := if aid2 = (sortMembers idToSharpe g.2).headD ""
                        then "SUBMIT" else "SKIP"
                      correlated_with := partnerNotes pairs aid2 }
                : ClusterRow).recommend
              = if aid2 = (sortMembers idToSharpe g.2).headD ""
                then "SUBMIT" else "SKIP" from rfl, if_neg he] at hsub
          exact absurd hsub (by decide)
      · intro hne2
        by_cases he : aid2 = (sortMembers idToSharpe g.2).headD ""
        · rw [hhead] at he
          subst he
          exact absurd rfl hne2
        · show (if aid2 = (sortMembers idToSharpe g.2).headD ""
              then "SUBMIT" else "SKIP") = "SKIP"
          rw [if_neg he]

/-- The heart of `_cluster_alphas`: over the sorted cluster groups of a
union-find forest built from a pair list, rows share a label index exactly
when their ids are pair-connected; each label has one maximal-Sharpe
`SUBMIT` row; label order follows best Sharpe; and the per-row fields are
as constructed. -/
theorem cluster_main (idToSharpe : List (String × ℚ)) (ids : List String)
    (pairs : List (String × String × ℚ)) (parent : List (String × String))
    (sg : List (String × List String))
    (hparent : parent = ufBuild pairs)
    (hsg : sg = sortedGroups idToSharpe (clusterGroups ids parent)) :
    (∀ r1 ∈ rowsOf idToSharpe pairs 1 sg, ∀ r2 ∈ rowsOf idToSharpe pairs 1 sg,
      (r1.clusterIdx = r2.clusterIdx ↔ Conn pairs r1.alpha_id r2.alpha_id)) ∧
    (∀ r ∈ rowsOf idToSharpe pairs 1 sg, ∃ s ∈ rowsOf idToSharpe pairs 1 sg,
      s.clusterIdx = r.clusterIdx ∧ s.recommend = "SUBMIT" ∧
      ∀ r2 ∈ rowsOf idToSharpe pairs 1 sg, r2.clusterIdx = r.clusterIdx →
        r2.sharpe ≤ s.sharpe ∧ (r2.recommend = "SUBMIT" → r2 = s) ∧
        (r2 ≠ s → r2.recommend = "SKIP")) ∧
    (∀ r1 ∈ rowsOf idToSharpe pairs 1 sg, ∀ r2 ∈ rowsOf idToSharpe pairs 1 sg,
      r1.recommend = "SUBMIT" → r2.recommend = "SUBMIT" →
      r1.clusterIdx ≤ r2.clusterIdx → r2.sharpe ≤ r1.sharpe) ∧
    (∀ r ∈ rowsOf idToSharpe pairs 1 sg,
      r.cluster = "C" ++ toString r.clusterIdx ∧ 1 ≤ r.clusterIdx ∧
      r.sharpe = sharpeOf idToSharpe r.alpha_id ∧
      r.correlated_with = partnerNotes pairs r.alpha_id) := by
  haveI ht1 : IsTotal (String × List String)
      (fun g1 g2 => bestSharpe idToSharpe g2.2 ≤ bestSharpe idToSharpe g1.2) :=
    ⟨fun a b => le_total _ _⟩
  haveI ht2 : IsTrans (String × List String)
      (fun g1 g2 => bestSharpe idToSharpe g2.2 ≤ bestSharpe idToSharpe g1.2) :=
    ⟨fun a b c h1 h2 => le_trans h2 h1⟩
  have hiff : ∀ x y, ufRoot parent x = ufRoot parent y ↔ Conn pairs x y := by
    rw [hparent]
    exact (ufBuild_spec pairs).2
  have hsgperm : List.Perm sg (clusterGroups ids parent) := by
    rw [hsg]
    exact List.perm_insertionSort _ _
  have hsgsorted : List.Sorted
      (fun g1 g2 => bestSharpe idToSharpe g2.2 ≤ bestSharpe idToSharpe g1.2) sg := by
    rw [hsg]
    exact List.sorted_insertionSort _ _
  have hknd : ((clusterGroups ids parent).map Prod.fst).Nodup := by
    rw [clusterGroups_keys]
    exact sdedup_nodup _
  have hsgnd : (sg.map Prod.fst).Nodup := (hsgperm.map Prod.fst).nodup_iff.mpr hknd
  have hgmem : ∀ (j : Nat) (hj : j < sg.length),
      sg.get ⟨j, hj⟩ ∈ clusterGroups ids parent :=
    fun j hj => hsgperm.subset (List.get_mem sg j hj)
  have hgne : ∀ (j : Nat) (hj : j < sg.length), (sg.get ⟨j, hj⟩).2 ≠ [] :=
    fun j hj => clusterGroups_ne_nil (hgmem j hj)
  have hroot : ∀ (j : Nat) (hj : j < sg.length) (r : ClusterRow),
      r ∈ groupRows idToSharpe pairs (1 + j) (sg.get ⟨j, hj⟩) →
      ufRoot parent r.alpha_id = (sg.get ⟨j, hj⟩).1 :=
    fun j hj r hr =>
      clusterGroups_root (hgmem j hj) r.alpha_id (groupRows_shape r hr).2.2.2.2
  have hjeq : ∀ (j1 : Nat) (hj1 : j1 < sg.length) (j2 : Nat) (hj2 : j2 < sg.length),
      (sg.get ⟨j1, hj1⟩).1 = (sg.get ⟨j2, hj2⟩).1 → j1 = j2 := by
    intro j1 hj1 j2 hj2 he
    have hgeq : sg.get ⟨j1, hj1⟩ = sg.get ⟨j2, hj2⟩ :=
      List.inj_on_of_nodup_map hsgnd (List.get_mem sg j1 hj1)
        (List.get_mem sg j2 hj2) he
    have hfin : (⟨j1, hj1⟩ : Fin sg.length) = ⟨j2, hj2⟩ :=
      ((List.Nodup.of_map Prod.fst hsgnd).get_inj_iff).mp hgeq
    simpa using congrArg Fin.val hfin
  refine ⟨?_, ?_, ?_, ?_⟩
  · intro r1 hr1 r2 hr2
    obtain ⟨j1, hj1, hg1⟩ := (mem_rowsOf sg 1 r1).mp hr1
    obtain ⟨j2, hj2, hg2⟩ := (mem_rowsOf sg 1 r2).mp hr2
    have hi1 := (groupRows_shape r1 hg1).1
    have hi2 := (groupRows_shape r2 hg2).1
    constructor
    · intro he
      rw [hi1, hi2] at he
      have hj12 : j1 = j2 := by omega
      subst hj12
      have e1 := hroot j1 hj1 r1 hg1
      have e2 := hroot j1 hj1 r2 hg2
      exact (hiff _ _).mp (e1.trans e2.symm)
    · intro hc
      have e1 := hroot j1 hj1 r1 hg1
      have e2 := hroot j2 hj2 r2 hg2
      have hre : (sg.get ⟨j1, hj1⟩).1 = (sg.get ⟨j2, hj2⟩).1 := by
        rw [← e1, ← e2]
        exact (hiff _ _).mpr hc
      have hj12 : j1 = j2 := hjeq j1 hj1 j2 hj2 hre
      rw [hi1, hi2, hj12]
  · intro r hr
    obtain ⟨j, hj, hg⟩ := (mem_rowsOf sg 1 r).mp hr
    obtain ⟨s, hsmem, hsub, hshar, hall⟩ :=
      groupRows_submit idToSharpe pairs (1 + j) (sg.get ⟨j, hj⟩) (hgne j hj)
    refine ⟨s, (mem_rowsOf sg 1 s).mpr ⟨j, hj, hsmem⟩, ?_, hsub, ?_⟩
    · rw [(groupRows_shape s hsmem).1, (groupRows_shape r hg).1]
    · intro r2 hr2 hidx2
      obtain ⟨j2, hj2, hg2⟩ := (mem_rowsOf sg 1 r2).mp hr2
      have hi2 := (groupRows_shape r2 hg2).1
      have hir := (groupRows_shape r hg).1
      rw [hi2, hir] at hidx2
      have hj12 : j2 = j := by omega
      subst hj12
      exact hall r2 hg2
  · intro r1 hr1 r2 hr2 hsub1 hsub2 hle
    obtain ⟨j1, hj1, hg1⟩ := (mem_rowsOf sg 1 r1).mp hr1
    obtain ⟨j2, hj2, hg2⟩ := (mem_rowsOf sg 1 r2).mp hr2
    obtain ⟨s1, hsm1, _, hshar1, hall1⟩ :=
      groupRows_submit idToSharpe pairs (1 + j1) (sg.get ⟨j1, hj1⟩) (hgne j1 hj1)
    obtain ⟨s2, hsm2, _, hshar2, hall2⟩ :=
      groupRows_submit idToSharpe pairs (1 + j2) (sg.get ⟨j2, hj2⟩) (hgne j2 hj2)
    have he1 : r1 = s1 := ((hall1 r1 hg1).2.1) hsub1
    have he2 : r2 = s2 := ((hall2 r2 hg2).2.1) hsub2
    rw [he1, he2, hshar1, hshar2]
    rw [(groupRows_shape r1 hg1).1, (groupRows_shape r2 hg2).1] at hle
    rcases Nat.lt_or_ge j1 j2 with hlt | hge
    · exact hsgsorted.rel_get_of_lt (by simpa using hlt)
    · have hj12 : j1 = j2 := by omega
      subst hj12
      exact le_refl _
  · intro r hr
    obtain ⟨j, hj, hg⟩ := (mem_rowsOf sg 1 r).mp hr
    obtain ⟨hi, hc, hsh, hcw, _⟩ := groupRows_shape r hg
    refine ⟨?_, ?_, hsh, hcw⟩
    · rw [hc, hi]
    · rw [hi]
      omega

/-- C8: for every intra-correlation matrix and Sharpe map, in the output of
`_cluster_alphas` two rows share a cluster exactly when their ids are
connected by a chain of collected pairs (|correlation| ≥ threshold); each
cluster has exactly one `SUBMIT` row, of maximal Sharpe within the cluster
(a single-row cluster is its own `SUBMIT`), all other rows being `SKIP`;
cluster labels `C1, C2, …` follow the clusters' best Sharpe in descending
order; and every attached partner correlation is a 2-decimal rounding of a
matrix value at or above the threshold in absolute value. -/
theorem claim_C8 (df : IntraDf) (idToSharpe : List (String × ℚ)) (thr : ℚ) :
    (∀ r1 ∈ clusterAlphas df idToSharpe thr,
      ∀ r2 ∈ clusterAlphas df idToSharpe thr,
      (r1.clusterIdx = r2.clusterIdx ↔
        Conn (allPairs df thr (clusterAlphaIds df idToSharpe))
          r1.alpha_id r2.alpha_id)) ∧
    (∀ r ∈ clusterAlphas df idToSharpe thr,
      ∃ s ∈ clusterAlphas df idToSharpe thr,
        s.clusterIdx = r.clusterIdx ∧ s.recommend = "SUBMIT" ∧
        ∀ r2 ∈ clusterAlphas df idToSharpe thr,
          r2.clusterIdx = r.clusterIdx →
            r2.sharpe ≤ s.sharpe ∧ (r2.recommend = "SUBMIT" → r2 = s) ∧
            (r2 ≠ s → r2.recommend = "SKIP")) ∧
    (∀ r1 ∈ clusterAlphas df idToSharpe thr,
      ∀ r2 ∈ clusterAlphas df idToSharpe thr,
      r1.recommend = "SUBMIT" → r2.recommend = "SUBMIT" →
      r1.clusterIdx ≤ r2.clusterIdx → r2.sharpe ≤ r1.sharpe) ∧
    (∀ r ∈ clusterAlphas df idToSharpe thr,
      r.cluster = "C" ++ toString r.clusterIdx ∧ 1 ≤ r.clusterIdx ∧
      r.sharpe = sharpeOf idToSharpe r.alpha_id) ∧
    (∀ r ∈ clusterAlphas df idToSharpe thr,
      ∀ q ∈ r.correlated_with, ∃ v, thr ≤ |v| ∧ q.2 = round2 v) := by
  obtain ⟨h1, h2, h3, h4⟩ := cluster_main idToSharpe
    (clusterAlphaIds df idToSharpe)
    (allPairs df thr (clusterAlphaIds df idToSharpe))
    (ufBuild (allPairs df thr (clusterAlphaIds df idToSharpe)))
    (sortedGroups idToSharpe
      (clusterGroups (clusterAlphaIds df idToSharpe)
        (ufBuild (allPairs df thr (clusterAlphaIds df idToSharpe)))))
    rfl rfl
  have hR : clusterAlphas df idToSharpe thr
      = rowsOf idToSharpe (allPairs df thr (clusterAlphaIds df idToSharpe)) 1
        (sortedGroups idToSharpe
          (clusterGroups (clusterAlphaIds df idToSharpe)
            (ufBuild (allPairs df thr (clusterAlphaIds df idToSharpe))))) := rfl
  rw [hR]
  refine ⟨h1, h2, h3,
    fun r hr => ⟨(h4 r hr).1, (h4 r hr).2.1, (h4 r hr).2.2.1⟩, ?_⟩
  intro r hr q hq
  rw [(h4 r hr).2.2.2] at hq
  obtain ⟨pr, hpr, hq2, _⟩ := mem_partnerNotes hq
  have hpr2 : (pr.1, pr.2.1, pr.2.2)
      ∈ allPairs df thr (clusterAlphaIds df idToSharpe) := hpr
  obtain ⟨hth, hcv⟩ := mem_allPairs hpr2
  exact ⟨pairVal df pr.1 pr.2.1, hth, by rw [hq2, hcv]⟩

set_option maxRecDepth 16000 in
/-- Witness for C8: in the example, the A and B rows are produced as rows
of the same cluster, and the theorem places them in one cluster exactly
when A and B are pair-connected. -/
theorem claim_C8_witness :
    c8rowA ∈ clusterAlphas c8df c8sharpe (1/2) ∧
    c8rowB ∈ clusterAlphas c8df c8sharpe (1/2) ∧
    (c8rowA.clusterIdx = c8rowB.clusterIdx ↔
      Conn (allPairs c8df (1/2) (clusterAlphaIds c8df c8sharpe))
        c8rowA.alpha_id c8rowB.alpha_id) :=
  ⟨of_decide_eq_true (by with_unfolding_all rfl),
    of_decide_eq_true (by with_unfolding_all rfl),
    (claim_C8 c8df c8sharpe (1/2)).1
      c8rowA (of_decide_eq_true (by with_unfolding_all rfl))
      c8rowB (of_decide_eq_true (by with_unfolding_all rfl))⟩

end WqbMcp
